import Mathlib

set_option linter.unusedVariables false
set_option maxRecDepth 100000

/-
Verification of the hedge operator-template compiler (JIT backend) and the
accelerator block-partitioning / face-storage subsystem.

The development shallowly embeds the relevant parts of
  src/python/backends/jit/__init__.py   (flux batching, kernel generation,
                                         execution mapper)
  src/python/cuda/discretization.py     (plan selection, block building,
                                         face storage map)
as executable Lean definitions and proves the specified properties about them.
-/

namespace HedgeJit

/-- Embedding of `hedge.flux.FieldComponent`: a flux dependency, carrying the
component index into an object array and the locality flag (`is_local`).
`hedge/flux.py` is not under `src/`; the structural equality and hashability
of `FieldComponent` (it is used as a dict key in `_get_flux_var_info` and
looked up again in `FluxToCodeMapper.map_field_component`) is modelled from
the spec, which treats (expression, locality) pairs as plain data. -/
structure FieldComponent where
  index : Nat
  is_local : Bool
deriving DecidableEq

/-- Field expressions of the rewritten operator template, as they appear as
flux operands.  After constant folding and zero elimination, a provably-zero
operand is the literal constant 0, which is exactly what
`pymbolic.primitives.is_zero` detects in `_get_flux_var_info`; `zero` embeds
that sentinel, `var` any other (non-zero) field expression. -/
inductive FieldExpr where
  | zero : FieldExpr
  | var : String → FieldExpr
deriving DecidableEq

/-- Embedding of the flux expression language that `FluxToCodeMapper`
translates: constants, field components, normal components, penalty terms,
sums and products (`hedge/flux.py` is not under `src/`; the node set is
modelled from the spec's description of flux expressions and from the mapper
methods present in `src/python/backends/jit/__init__.py`). -/
inductive FluxExpr where
  | const : ℚ → FluxExpr
  | fieldComponent : FieldComponent → FluxExpr
  | normalComp : Nat → FluxExpr
  | penaltyTerm : Nat → FluxExpr
  | add : FluxExpr → FluxExpr → FluxExpr
  | mul : FluxExpr → FluxExpr → FluxExpr
deriving DecidableEq

/-- Order-preserving deduplication keeping first occurrences. -/
def dedupFirst {α : Type} [DecidableEq α] (l : List α) : List α :=
  l.foldl (fun acc x => if x ∈ acc then acc else acc ++ [x]) []

/-- Raw left-to-right list of `FieldComponent` leaves of a flux expression. -/
def fluxDepsRaw : FluxExpr → List FieldComponent
  | .const _ => []
  | .fieldComponent fc => [fc]
  | .normalComp _ => []
  | .penaltyTerm _ => []
  | .add a b => fluxDepsRaw a ++ fluxDepsRaw b
  | .mul a b => fluxDepsRaw a ++ fluxDepsRaw b

/-- Embedding of `FluxDependencyMapper(composite_leaves=True)(flux)`: the set
of `FieldComponent` dependencies of a flux.  `hedge/flux.py` is not under
`src/`; modelled from the spec, whose determinism guarantee ("stable
iteration order") we realize as first-occurrence order of the leaves. -/
def fluxDeps (f : FluxExpr) : List FieldComponent :=
  dedupFirst (fluxDepsRaw f)

/-- Operand of a flux operator binding: either a single field expression or an
object array of field expressions (`hedge.tools.is_obj_array`). -/
inductive FieldArg where
  | single : FieldExpr → FieldArg
  | objArray : List FieldExpr → FieldArg
deriving DecidableEq

/-- Field of a flux operator binding: either an ordinary (interior) operand or
a `BoundaryPair(field, bfield, tag)`. -/
inductive BindingField where
  | ordinary : FieldArg → BindingField
  | boundaryPair : FieldArg → FieldArg → String → BindingField
deriving DecidableEq

/-- One flux operator binding handed to `make_flux_batch_assign`: the flux
expression (`flux_binding.op.flux`) and its operand (`flux_binding.field`). -/
structure FluxBinding where
  flux : FluxExpr
  field : BindingField
deriving DecidableEq

/-- Embedding of the `this_field_expr` selection in `_get_flux_var_info`:
for a `BoundaryPair`, a local dependency reads the interior `field` and a
non-local one the boundary `bfield`; otherwise the operand itself. -/
def thisFieldExpr (field : BindingField) (fc : FieldComponent) : FieldArg :=
  match field with
  | .boundaryPair f bf _ => if fc.is_local then f else bf
  | .ordinary f => f

/-- Embedding of the `fc_field_expr` computation: index into an object array
with `fc.index`; for a single expression the code asserts `fc.index == 0`.
`none` models the assertion/index failure. -/
def fcFieldExpr (arg : FieldArg) (fc : FieldComponent) : Option FieldExpr :=
  match arg with
  | .objArray l => l.get? fc.index
  | .single e => if fc.index = 0 then some e else none

/-- Resolution of dependency `fc` of the flux at position `i` of the batch to
its field expression, exactly as `_get_flux_var_info` computes it. -/
def resolveDep (fluxes : List FluxBinding) (i : Nat) (fc : FieldComponent) :
    Option FieldExpr :=
  (fluxes.get? i).bind fun fb => fcFieldExpr (thisFieldExpr fb.field fc) fc

/-- Embedding of the `FluxVariableInfo` record built by
`OperatorCompiler._get_flux_var_info`: `arg_specs` (field expression,
locality), `arg_names`, and the dict `flux_idx_and_dep_to_arg_name`
(an entry `none` embeds the `0` no-slot marker for zero operands). -/
structure FluxVariableInfo where
  arg_specs : List (FieldExpr × Bool)
  arg_names : List String
  flux_idx_and_dep_to_arg_name : List ((Nat × FieldComponent) × Option String)
deriving DecidableEq

/-- Association-list lookup for the `field_expr_to_arg_name` dict. -/
def lookupExpr (table : List (FieldExpr × String)) (e : FieldExpr) :
    Option String :=
  match table with
  | [] => none
  | (k, v) :: rest => if k = e then some v else lookupExpr rest e

/-- Loop state of `_get_flux_var_info`: the record being built plus the
`field_expr_to_arg_name` dict. -/
structure FviState where
  fvi : FluxVariableInfo
  field_expr_to_arg_name : List (FieldExpr × String)
deriving DecidableEq

/-- Initial state of the `_get_flux_var_info` loop. -/
def fviInit : FviState :=
  { fvi := { arg_specs := [], arg_names := [],
             flux_idx_and_dep_to_arg_name := [] },
    field_expr_to_arg_name := [] }

/-- Body of the inner loop of `_get_flux_var_info` for one dependency `fc` of
the flux at index `flux_idx`: resolve the field expression; a zero operand is
mapped to the no-slot marker; otherwise reuse the slot registered for that
expression, or register a fresh slot `arg<n>` with the dependency's locality
flag. -/
def processDep (flux_idx : Nat) (field : BindingField) (st : FviState)
    (fc : FieldComponent) : Option FviState :=
  match fcFieldExpr (thisFieldExpr field fc) fc with
  | none => none
  | some e =>
    if e = FieldExpr.zero then
      some { st with
        fvi := { st.fvi with
          flux_idx_and_dep_to_arg_name :=
            st.fvi.flux_idx_and_dep_to_arg_name ++ [((flux_idx, fc), none)] } }
    else
      match lookupExpr st.field_expr_to_arg_name e with
      | none =>
        some { fvi :=
                 { arg_specs := st.fvi.arg_specs ++ [(e, fc.is_local)],
                   arg_names := st.fvi.arg_names ++
                     ["arg" ++ toString st.fvi.arg_specs.length],
                   flux_idx_and_dep_to_arg_name :=
                     st.fvi.flux_idx_and_dep_to_arg_name ++
                       [((flux_idx, fc),
                         some ("arg" ++ toString st.fvi.arg_specs.length))] },
               field_expr_to_arg_name :=
                 st.field_expr_to_arg_name ++
                   [(e, "arg" ++ toString st.fvi.arg_specs.length)] }
      | some arg_name =>
        some { st with
          fvi := { st.fvi with
            flux_idx_and_dep_to_arg_name :=
              st.fvi.flux_idx_and_dep_to_arg_name ++
                [((flux_idx, fc), some arg_name)] } }

/-- Inner loop of `_get_flux_var_info` over the dependency list of one flux. -/
def processDeps (flux_idx : Nat) (field : BindingField) :
    FviState → List FieldComponent → Option FviState
  | st, [] => some st
  | st, fc :: rest =>
    (processDep flux_idx field st fc).bind fun st2 =>
      processDeps flux_idx field st2 rest

/-- Outer loop of `_get_flux_var_info` over `enumerate(fluxes)`, with `i` the
index of the first binding of `rest`. -/
def processFluxes : FviState → Nat → List FluxBinding → Option FviState
  | st, _, [] => some st
  | st, i, fb :: rest =>
    (processDeps i fb.field st (fluxDeps fb.flux)).bind fun st2 =>
      processFluxes st2 (i + 1) rest

/-- Embedding of `OperatorCompiler._get_flux_var_info`. -/
def get_flux_var_info (fluxes : List FluxBinding) : Option FluxVariableInfo :=
  (processFluxes fviInit 0 fluxes).map FviState.fvi

/-- A map entry value is correct for field expression `e`: zero operands carry
the no-slot marker, non-zero operands the name of the (unique) slot whose
spec is keyed by `e`. -/
def entryOk (fvi : FluxVariableInfo) (e : FieldExpr) (v : Option String) :
    Prop :=
  if e = FieldExpr.zero then v = none
  else ∃ k, ∃ hk : k < fvi.arg_specs.length,
    (fvi.arg_specs.get ⟨k, hk⟩).1 = e ∧
    ∃ hk2 : k < fvi.arg_names.length, v = some (fvi.arg_names.get ⟨k, hk2⟩)

/-- Invariant of the `_get_flux_var_info` loop state: names and specs run in
parallel, the `field_expr_to_arg_name` dict is exactly the spec table, its
keys are distinct non-zero field expressions. -/
structure FviInv (st : FviState) : Prop where
  len_names : st.fvi.arg_names.length = st.fvi.arg_specs.length
  table_keys : st.field_expr_to_arg_name.map Prod.fst
      = st.fvi.arg_specs.map Prod.fst
  table_vals : st.field_expr_to_arg_name.map Prod.snd = st.fvi.arg_names
  keys_nodup : (st.fvi.arg_specs.map Prod.fst).Nodup
  keys_nonzero : ∀ p ∈ st.fvi.arg_specs, p.1 ≠ FieldExpr.zero

theorem fviInit_inv : FviInv fviInit := by
  constructor <;> simp [fviInit]

theorem lookupExpr_eq_none {table : List (FieldExpr × String)} {e : FieldExpr} :
    lookupExpr table e = none ↔ ∀ p ∈ table, p.1 ≠ e := by
  induction table with
  | nil => simp [lookupExpr]
  | cons hd tl ih =>
    obtain ⟨k, v⟩ := hd
    by_cases hk : k = e
    · subst hk; simp [lookupExpr]
    · simp [lookupExpr, hk, ih]

theorem lookupExpr_some {table : List (FieldExpr × String)} {e : FieldExpr}
    {v : String} (h : lookupExpr table e = some v) :
    ∃ k, ∃ hk : k < table.length,
      (table.get ⟨k, hk⟩).1 = e ∧ (table.get ⟨k, hk⟩).2 = v := by
  induction table with
  | nil => simp [lookupExpr] at h
  | cons hd tl ih =>
    obtain ⟨key, val⟩ := hd
    by_cases hk : key = e
    · subst hk
      simp [lookupExpr] at h
      exact ⟨0, by simp, by simp, by simp [h]⟩
    · simp [lookupExpr, hk] at h
      obtain ⟨k, hklt, h1, h2⟩ := ih h
      exact ⟨k + 1, by simpa using Nat.succ_lt_succ hklt, by simpa using h1,
        by simpa using h2⟩

theorem entryOk_mono {fvi fvi2 : FluxVariableInfo} {e : FieldExpr}
    {v : Option String}
    (hs : ∃ s, fvi2.arg_specs = fvi.arg_specs ++ s)
    (hn : ∃ n, fvi2.arg_names = fvi.arg_names ++ n) :
    entryOk fvi e v → entryOk fvi2 e v := by
  obtain ⟨s, hs⟩ := hs
  obtain ⟨n, hn⟩ := hn
  intro h
  unfold entryOk at h ⊢
  by_cases hz : e = FieldExpr.zero
  · simpa [hz] using h
  · simp only [hz, if_neg, ite_false] at h ⊢
    obtain ⟨k, hk, h1, hk2, h2⟩ := h
    have hk' : k < fvi2.arg_specs.length := by
      rw [hs, List.length_append]; omega
    have hk2' : k < fvi2.arg_names.length := by
      rw [hn, List.length_append]; omega
    refine ⟨k, hk', ?_, hk2', ?_⟩
    · have : fvi2.arg_specs.get ⟨k, hk'⟩ = fvi.arg_specs.get ⟨k, hk⟩ := by
        simp only [List.get_eq_getElem, hs]
        exact List.getElem_append_left hk
      rw [this]; exact h1
    · have : fvi2.arg_names.get ⟨k, hk2'⟩ = fvi.arg_names.get ⟨k, hk2⟩ := by
        simp only [List.get_eq_getElem, hn]
        exact List.getElem_append_left hk2
      rw [this]; exact h2

theorem lookup_parallel (table : List (FieldExpr × String))
    (specs : List (FieldExpr × Bool)) (names : List String)
    (hks : table.map Prod.fst = specs.map Prod.fst)
    (hvs : table.map Prod.snd = names)
    {e : FieldExpr} {v : String} (h : lookupExpr table e = some v) :
    ∃ k, ∃ hkl : k < specs.length, (specs.get ⟨k, hkl⟩).1 = e ∧
      ∃ hkn : k < names.length, v = names.get ⟨k, hkn⟩ := by
  induction table generalizing specs names with
  | nil => simp [lookupExpr] at h
  | cons hd tl ih =>
    cases specs with
    | nil => simp at hks
    | cons sp stl =>
      cases names with
      | nil => simp at hvs
      | cons nm ntl =>
        obtain ⟨key, val⟩ := hd
        simp only [List.map_cons, List.cons.injEq] at hks hvs
        obtain ⟨hk1, hk2⟩ := hks
        obtain ⟨hv1, hv2⟩ := hvs
        by_cases hke : key = e
        · subst hke
          simp [lookupExpr] at h
          refine ⟨0, by simp, ?_, by simp, ?_⟩
          · simpa using hk1.symm
          · simp [← h, ← hv1]
        · simp [lookupExpr, hke] at h
          obtain ⟨k, hkl, h1, hkn, h2⟩ := ih stl ntl hk2 hv2 h
          refine ⟨k + 1, by simpa using Nat.succ_lt_succ hkl, ?_,
            by simpa using Nat.succ_lt_succ hkn, ?_⟩
          · simpa using h1
          · simpa using h2

theorem lookupExpr_entryOk {st : FviState} (hInv : FviInv st) {e : FieldExpr}
    {v : String} (hz : e ≠ FieldExpr.zero)
    (h : lookupExpr st.field_expr_to_arg_name e = some v) :
    entryOk st.fvi e (some v) := by
  obtain ⟨k, hkl, h1, hkn, h2⟩ :=
    lookup_parallel _ _ _ hInv.table_keys hInv.table_vals h
  unfold entryOk
  rw [if_neg hz]
  exact ⟨k, hkl, h1, hkn, by rw [← h2]⟩

theorem processDep_ok {flux_idx : Nat} {field : BindingField}
    {st st2 : FviState} {fc : FieldComponent} (hInv : FviInv st)
    (h : processDep flux_idx field st fc = some st2) :
    FviInv st2
    ∧ (∃ s, st2.fvi.arg_specs = st.fvi.arg_specs ++ s)
    ∧ (∃ n, st2.fvi.arg_names = st.fvi.arg_names ++ n)
    ∧ ∃ v e, st2.fvi.flux_idx_and_dep_to_arg_name
          = st.fvi.flux_idx_and_dep_to_arg_name ++ [((flux_idx, fc), v)]
        ∧ fcFieldExpr (thisFieldExpr field fc) fc = some e
        ∧ entryOk st2.fvi e v := by
  cases hres : fcFieldExpr (thisFieldExpr field fc) fc with
  | none => simp only [processDep, hres] at h; simp at h
  | some e =>
    simp only [processDep, hres] at h
    by_cases hz : e = FieldExpr.zero
    · rw [if_pos hz] at h
      injection h with h2
      subst h2
      refine ⟨?_, ⟨[], by simp⟩, ⟨[], by simp⟩, none, e, rfl, rfl, ?_⟩
      · exact ⟨hInv.len_names, hInv.table_keys, hInv.table_vals,
          hInv.keys_nodup, hInv.keys_nonzero⟩
      · simp [entryOk, hz]
    · rw [if_neg hz] at h
      cases hl : lookupExpr st.field_expr_to_arg_name e with
      | some arg_name =>
        rw [hl] at h
        injection h with h2
        subst h2
        refine ⟨?_, ⟨[], by simp⟩, ⟨[], by simp⟩, some arg_name, e, rfl,
          rfl, ?_⟩
        · exact ⟨hInv.len_names, hInv.table_keys, hInv.table_vals,
            hInv.keys_nodup, hInv.keys_nonzero⟩
        · exact lookupExpr_entryOk hInv hz hl
      | none =>
        rw [hl] at h
        injection h with h2
        subst h2
        have hnotin : e ∉ st.fvi.arg_specs.map Prod.fst := by
          rw [← hInv.table_keys]
          intro hmem
          obtain ⟨p, hp, hpe⟩ := List.mem_map.1 hmem
          exact (lookupExpr_eq_none.1 hl) p hp hpe
        refine ⟨?_, ⟨[(e, fc.is_local)], rfl⟩,
          ⟨["arg" ++ toString st.fvi.arg_specs.length], rfl⟩,
          some ("arg" ++ toString st.fvi.arg_specs.length), e, rfl, rfl, ?_⟩
        · constructor
          · simp [hInv.len_names]
          · simp [hInv.table_keys]
          · simp [hInv.table_vals]
          · have hnd : (st.fvi.arg_specs.map Prod.fst ++ [e]).Nodup := by
              refine List.Nodup.append hInv.keys_nodup
                (List.nodup_singleton e) ?_
              intro a ha hb
              rw [List.mem_singleton] at hb
              subst hb
              exact hnotin ha
            simpa using hnd
          · intro p hp
            rcases List.mem_append.1 hp with hp1 | hp2
            · exact hInv.keys_nonzero p hp1
            · rw [List.mem_singleton] at hp2
              subst hp2
              exact hz
        · unfold entryOk
          rw [if_neg hz]
          refine ⟨st.fvi.arg_specs.length, by simp, ?_,
            by simp [hInv.len_names], ?_⟩
          · simp only [List.get_eq_getElem]
            rw [List.getElem_concat_length _ _ _ rfl]
          · simp only [List.get_eq_getElem]
            rw [List.getElem_append_right (le_of_eq hInv.len_names)]
            simp [hInv.len_names]


theorem processDeps_ok {flux_idx : Nat} {field : BindingField} :
    ∀ (deps : List FieldComponent) (st st2 : FviState), FviInv st →
    processDeps flux_idx field st deps = some st2 →
    FviInv st2
    ∧ (∃ s, st2.fvi.arg_specs = st.fvi.arg_specs ++ s)
    ∧ (∃ n, st2.fvi.arg_names = st.fvi.arg_names ++ n)
    ∧ ∃ entries, st2.fvi.flux_idx_and_dep_to_arg_name
          = st.fvi.flux_idx_and_dep_to_arg_name ++ entries
        ∧ entries.map Prod.fst = deps.map (fun fc => (flux_idx, fc))
        ∧ ∀ p ∈ entries,
            ∃ e, fcFieldExpr (thisFieldExpr field p.1.2) p.1.2 = some e
              ∧ entryOk st2.fvi e p.2 := by
  intro deps
  induction deps with
  | nil =>
    intro st st2 hInv h
    simp only [processDeps] at h
    injection h with h2
    subst h2
    exact ⟨hInv, ⟨[], by simp⟩, ⟨[], by simp⟩, [], by simp, by simp, by simp⟩
  | cons fc rest ih =>
    intro st st2 hInv h
    simp only [processDeps] at h
    cases hd : processDep flux_idx field st fc with
    | none => rw [hd] at h; simp at h
    | some stm =>
      rw [hd] at h
      rw [Option.some_bind] at h
      obtain ⟨hInvm, hs1, hn1, v, e, hmap1, hres1, hok1⟩ :=
        processDep_ok hInv hd
      obtain ⟨hInv2, hs2, hn2, entries2, hmap2, hkeys2, hok2⟩ :=
        ih stm st2 hInvm h
      obtain ⟨s1, hs1⟩ := hs1
      obtain ⟨n1, hn1⟩ := hn1
      obtain ⟨s2, hs2⟩ := hs2
      obtain ⟨n2, hn2⟩ := hn2
      refine ⟨hInv2, ⟨s1 ++ s2, by rw [hs2, hs1, List.append_assoc]⟩,
        ⟨n1 ++ n2, by rw [hn2, hn1, List.append_assoc]⟩,
        ((flux_idx, fc), v) :: entries2, ?_, ?_, ?_⟩
      · rw [hmap2, hmap1, List.append_assoc]
        rfl
      · simp [hkeys2]
      · intro p hp
        rcases List.mem_cons.1 hp with hp1 | hp2
        · subst hp1
          exact ⟨e, hres1, entryOk_mono ⟨s2, hs2⟩ ⟨n2, hn2⟩ hok1⟩
        · exact hok2 p hp2

theorem processFluxes_ok :
    ∀ (rest : List FluxBinding) (st : FviState) (i : Nat) (st2 : FviState),
    FviInv st → processFluxes st i rest = some st2 →
    FviInv st2
    ∧ (∃ s, st2.fvi.arg_specs = st.fvi.arg_specs ++ s)
    ∧ (∃ n, st2.fvi.arg_names = st.fvi.arg_names ++ n)
    ∧ ∃ entries, st2.fvi.flux_idx_and_dep_to_arg_name
          = st.fvi.flux_idx_and_dep_to_arg_name ++ entries
        ∧ entries.map Prod.fst
            = (rest.enumFrom i).flatMap
                (fun p => (fluxDeps p.2.flux).map fun fc => (p.1, fc))
        ∧ ∀ p ∈ entries, ∃ j fb, rest.get? j = some fb ∧ p.1.1 = i + j
            ∧ ∃ e, fcFieldExpr (thisFieldExpr fb.field p.1.2) p.1.2 = some e
              ∧ entryOk st2.fvi e p.2 := by
  intro rest
  induction rest with
  | nil =>
    intro st i st2 hInv h
    simp only [processFluxes] at h
    injection h with h2
    subst h2
    exact ⟨hInv, ⟨[], by simp⟩, ⟨[], by simp⟩, [], by simp, by simp, by simp⟩
  | cons fb rest ih =>
    intro st i st2 hInv h
    simp only [processFluxes] at h
    cases hd : processDeps i fb.field st (fluxDeps fb.flux) with
    | none => rw [hd] at h; simp at h
    | some stm =>
      rw [hd] at h
      rw [Option.some_bind] at h
      obtain ⟨hInvm, hs1, hn1, entries1, hmap1, hkeys1, hok1⟩ :=
        processDeps_ok (fluxDeps fb.flux) st stm hInv hd
      obtain ⟨hInv2, hs2, hn2, entries2, hmap2, hkeys2, hok2⟩ :=
        ih stm (i + 1) st2 hInvm h
      obtain ⟨s1, hs1⟩ := hs1
      obtain ⟨n1, hn1⟩ := hn1
      obtain ⟨s2, hs2⟩ := hs2
      obtain ⟨n2, hn2⟩ := hn2
      refine ⟨hInv2, ⟨s1 ++ s2, by rw [hs2, hs1, List.append_assoc]⟩,
        ⟨n1 ++ n2, by rw [hn2, hn1, List.append_assoc]⟩,
        entries1 ++ entries2, ?_, ?_, ?_⟩
      · rw [hmap2, hmap1, List.append_assoc]
      · simp only [List.enumFrom, List.flatMap_cons, List.map_append,
          hkeys1, hkeys2]
      · intro p hp
        rcases List.mem_append.1 hp with hp1 | hp2
        · have hkey : p.1 ∈ entries1.map Prod.fst :=
            List.mem_map_of_mem _ hp1
          rw [hkeys1] at hkey
          obtain ⟨fc, _, hfc⟩ := List.mem_map.1 hkey
          obtain ⟨e, hres, hok⟩ := hok1 p hp1
          refine ⟨0, fb, rfl, ?_, e, hres, entryOk_mono ⟨s2, hs2⟩ ⟨n2, hn2⟩ hok⟩
          rw [← hfc]
          simp
        · obtain ⟨j, fb2, hget, hidx, e, hres, hok⟩ := hok2 p hp2
          exact ⟨j + 1, fb2, hget, by omega, e, hres, hok⟩


/-- Association-list lookup in the `flux_idx_and_dep_to_arg_name` dict, as
`FluxToCodeMapper.map_field_component` performs it. -/
def lookupDep (m : List ((Nat × FieldComponent) × Option String))
    (key : Nat × FieldComponent) : Option (Option String) :=
  match m with
  | [] => none
  | (k, v) :: rest => if k = key then some v else lookupDep rest key

/-- Concrete interior flux batch for C1: one flux reading the interior trace
(`is_local = True`) and the exterior trace (`is_local = False`) of the same
field expression `u`. -/
def c1Batch : List FluxBinding :=
  [{ flux := .add (.fieldComponent ⟨0, true⟩) (.fieldComponent ⟨0, false⟩),
     field := .ordinary (.single (.var "u")) }]

/-- Argument table the batcher actually builds for `c1Batch`. -/
def c1Fvi : FluxVariableInfo :=
  { arg_specs := [(.var "u", true)],
    arg_names := ["arg0"],
    flux_idx_and_dep_to_arg_name :=
      [((0, ⟨0, true⟩), some "arg0"), ((0, ⟨0, false⟩), some "arg0")] }

/-- C1, counterexample: in `c1Batch` the two dependencies share the field
expression `u` but differ in their locality flag, yet `_get_flux_var_info`
assigns both the single argument slot `arg0` — the slot key is the field
expression alone (`field_expr_to_arg_name` is keyed by `fc_field_expr`, not
by the pair), so dependencies with the same field expression and different
locality flags do NOT get distinct slots. -/
theorem c1_locality_shares_slot :
    get_flux_var_info c1Batch = some c1Fvi
    ∧ lookupDep c1Fvi.flux_idx_and_dep_to_arg_name (0, ⟨0, true⟩)
        = some (some "arg0")
    ∧ lookupDep c1Fvi.flux_idx_and_dep_to_arg_name (0, ⟨0, false⟩)
        = some (some "arg0")
    ∧ c1Fvi.arg_names = ["arg0"] := by
  refine ⟨by decide, by decide, by decide, rfl⟩

/-- C1 (amended): the argument table built by `_get_flux_var_info` assigns
exactly one named argument slot per distinct non-zero field expression
referenced by some flux of the batch — the locality flag is NOT part of the
slot key (the recorded locality is that of the first occurrence).  The map
carries exactly one entry per (flux, dependency) pair, in iteration order;
a dependency whose field expression is the zero sentinel is mapped to the
no-slot marker and consumes no slot; identical field expressions occurring in
different dependencies or fluxes of the batch map to the same slot. -/
theorem c1_arg_table_per_expression (fluxes : List FluxBinding)
    (fvi : FluxVariableInfo) (h : get_flux_var_info fluxes = some fvi) :
    fvi.flux_idx_and_dep_to_arg_name.map Prod.fst
      = fluxes.enum.flatMap
          (fun p => (fluxDeps p.2.flux).map fun fc => (p.1, fc))
    ∧ (fvi.arg_specs.map Prod.fst).Nodup
    ∧ (∀ p ∈ fvi.arg_specs, p.1 ≠ FieldExpr.zero)
    ∧ fvi.arg_names.length = fvi.arg_specs.length
    ∧ (∀ i fc v, ((i, fc), v) ∈ fvi.flux_idx_and_dep_to_arg_name →
        ∃ e, resolveDep fluxes i fc = some e ∧
          (e = FieldExpr.zero → v = none) ∧
          (e ≠ FieldExpr.zero → ∃ k, ∃ hk : k < fvi.arg_specs.length,
            (fvi.arg_specs.get ⟨k, hk⟩).1 = e ∧
            ∃ hk2 : k < fvi.arg_names.length,
              v = some (fvi.arg_names.get ⟨k, hk2⟩)))
    ∧ (∀ i fc v i2 fc2 v2 e,
        ((i, fc), v) ∈ fvi.flux_idx_and_dep_to_arg_name →
        ((i2, fc2), v2) ∈ fvi.flux_idx_and_dep_to_arg_name →
        resolveDep fluxes i fc = some e →
        resolveDep fluxes i2 fc2 = some e → v = v2) := by
  unfold get_flux_var_info at h
  cases hp : processFluxes fviInit 0 fluxes with
  | none => rw [hp] at h; simp at h
  | some stf =>
    rw [hp] at h
    simp only [Option.map_some'] at h
    obtain rfl : stf.fvi = fvi := by injection h
    obtain ⟨hInv2, _, _, entries, hmap, hkeys, hok⟩ :=
      processFluxes_ok fluxes fviInit 0 stf fviInit_inv hp
    have hmap2 : stf.fvi.flux_idx_and_dep_to_arg_name = entries := by
      simpa [fviInit] using hmap
    have hentry : ∀ i fc v,
        ((i, fc), v) ∈ stf.fvi.flux_idx_and_dep_to_arg_name →
        ∃ e, resolveDep fluxes i fc = some e ∧
          (e = FieldExpr.zero → v = none) ∧
          (e ≠ FieldExpr.zero → ∃ k, ∃ hk : k < stf.fvi.arg_specs.length,
            (stf.fvi.arg_specs.get ⟨k, hk⟩).1 = e ∧
            ∃ hk2 : k < stf.fvi.arg_names.length,
              v = some (stf.fvi.arg_names.get ⟨k, hk2⟩)) := by
      intro i fc v hv
      rw [hmap2] at hv
      obtain ⟨j, fb, hget, hij, e, hres, hok1⟩ := hok _ hv
      have hi : i = j := by simpa using hij
      subst hi
      refine ⟨e, ?_, ?_, ?_⟩
      · show resolveDep fluxes i fc = some e
        unfold resolveDep
        rw [hget, Option.some_bind]
        simpa using hres
      · intro hz
        unfold entryOk at hok1
        rw [if_pos hz] at hok1
        exact hok1
      · intro hz
        unfold entryOk at hok1
        rw [if_neg hz] at hok1
        exact hok1
    refine ⟨?_, hInv2.keys_nodup, hInv2.keys_nonzero, hInv2.len_names,
      hentry, ?_⟩
    · rw [hmap2, hkeys]
      rfl
    · intro i fc v i2 fc2 v2 e h1 h2 hr1 hr2
      obtain ⟨e1, hre1, hz1, hnz1⟩ := hentry i fc v h1
      obtain ⟨e2, hre2, hz2, hnz2⟩ := hentry i2 fc2 v2 h2
      have he1 : e1 = e := by
        rw [hr1] at hre1
        injection hre1 with hh
        exact hh.symm
      have he2 : e2 = e := by
        rw [hr2] at hre2
        injection hre2 with hh
        exact hh.symm
      by_cases hz : e = FieldExpr.zero
      · rw [hz1 (by rw [he1, hz]), hz2 (by rw [he2, hz])]
      · obtain ⟨k, hk, hke, hkn, hv⟩ := hnz1 (by rw [he1]; exact hz)
        obtain ⟨k2, hk2, hke2, hkn2, hv2⟩ := hnz2 (by rw [he2]; exact hz)
        have hkeE : (stf.fvi.arg_specs.get ⟨k, hk⟩).1 = e := by
          rw [hke, he1]
        have hke2E : (stf.fvi.arg_specs.get ⟨k2, hk2⟩).1 = e := by
          rw [hke2, he2]
        have hkk : k = k2 := by
          have hmk : k < (stf.fvi.arg_specs.map Prod.fst).length := by
            simpa using hk
          have hmk2 : k2 < (stf.fvi.arg_specs.map Prod.fst).length := by
            simpa using hk2
          have hg : (stf.fvi.arg_specs.map Prod.fst).get ⟨k, hmk⟩
              = (stf.fvi.arg_specs.map Prod.fst).get ⟨k2, hmk2⟩ := by
            simp only [List.get_eq_getElem, List.getElem_map]
            rw [show stf.fvi.arg_specs[k] = stf.fvi.arg_specs.get ⟨k, hk⟩
                from rfl,
              show stf.fvi.arg_specs[k2] = stf.fvi.arg_specs.get ⟨k2, hk2⟩
                from rfl, hkeE, hke2E]
          have := (hInv2.keys_nodup.get_inj_iff).1 hg
          simpa using this
        subst hkk
        rw [hv, hv2]

/-- C1, witness for the amended theorem: it applies to the concrete batch
`c1Batch` whose table is `c1Fvi`. -/
theorem c1_arg_table_per_expression_witness :
    (c1Fvi.arg_specs.map Prod.fst).Nodup
    ∧ (∀ p ∈ c1Fvi.arg_specs, p.1 ≠ FieldExpr.zero) :=
  ⟨(c1_arg_table_per_expression c1Batch c1Fvi (by decide)).2.1,
   (c1_arg_table_per_expression c1Batch c1Fvi (by decide)).2.2.1⟩


/-- Geometric and indexing data of one side (`fp.loc` / `fp.opp`) of a
`face_pair` as referenced by the generated kernels: element base index,
face index list number, element number local to the face group, face id,
surface Jacobian, and the quantities `normal`, `order`, `h` read by
`FluxToCodeMapper`. -/
structure FacePairSide where
  el_base_index : Nat
  face_index_list_number : Nat
  local_el_number : Nat
  face_id : Nat
  face_jacobian : ℚ
  normal : Nat → ℚ
  order : ℚ
  h : ℚ

/-- One `face_pair` of a face group, with the opposite-side native write map
(`fp.opp_native_write_map`, an index-list number). -/
structure FacePair where
  loc : FacePairSide
  opp : FacePairSide
  opp_native_write_map : Nat

/-- A `face_group`: its face pairs, face length, face count and the index
list table `fg.index_list(n)[i]`. -/
structure FaceGroup where
  face_pairs : List FacePair
  face_length : Nat
  face_count : Nat
  index_list : Nat → Nat → Nat

/-- Denotation of the C expression emitted by `FluxToCodeMapper` for one flux
expression, evaluated at one face point: `args` gives the contents of the
named argument buffers, `locIdx`/`oppIdx` are the precomputed element-local
node indices, `loc`/`opp` the two sides\' geometric data.  `map_normal` and
`map_penalty_term` read the `opp` side when `is_flipped` is set;
`map_field_component` reads the local buffer iff `is_local XOR is_flipped`,
and renders the no-slot marker as the literal `0`.  (A dict miss cannot occur
for kernels generated from their own `fvi`; the evaluator renders it as 0 to
stay total.) -/
def fluxToCode (fvi : FluxVariableInfo) (flux_idx : Nat) (is_flipped : Bool)
    (args : String → Nat → ℚ) (locIdx oppIdx : Nat)
    (loc opp : FacePairSide) : FluxExpr → ℚ
  | .const q => q
  | .normalComp axis => (if is_flipped then opp else loc).normal axis
  | .penaltyTerm pwr =>
      ((if is_flipped then opp else loc).order
          * (if is_flipped then opp else loc).order
          / (if is_flipped then opp else loc).h) ^ pwr
  | .fieldComponent fc =>
      match lookupDep fvi.flux_idx_and_dep_to_arg_name (flux_idx, fc) with
      | none => 0
      | some none => 0
      | some (some arg_name) =>
          args arg_name (if xor fc.is_local is_flipped then locIdx else oppIdx)
  | .add a b => fluxToCode fvi flux_idx is_flipped args locIdx oppIdx loc opp a
      + fluxToCode fvi flux_idx is_flipped args locIdx oppIdx loc opp b
  | .mul a b => fluxToCode fvi flux_idx is_flipped args locIdx oppIdx loc opp a
      * fluxToCode fvi flux_idx is_flipped args locIdx oppIdx loc opp b

/-- Embedding of `loc_fof_base` in the generated interior kernel:
`fg.face_length()*(fp.loc.local_el_number*fg.face_count + fp.loc.face_id)`. -/
def loc_fof_base (fg : FaceGroup) (fp : FacePair) : Nat :=
  fg.face_length * (fp.loc.local_el_number * fg.face_count + fp.loc.face_id)

/-- Embedding of `opp_fof_base` in the generated interior kernel. -/
def opp_fof_base (fg : FaceGroup) (fp : FacePair) : Nat :=
  fg.face_length * (fp.opp.local_el_number * fg.face_count + fp.opp.face_id)

/-- Embedding of `loc_idx = loc_ebi + loc_idx_list[i]`. -/
def locNodeIdx (fg : FaceGroup) (fp : FacePair) (i : Nat) : Nat :=
  fp.loc.el_base_index + fg.index_list fp.loc.face_index_list_number i

/-- Embedding of `opp_idx = opp_ebi + opp_idx_list[i]`. -/
def oppNodeIdx (fg : FaceGroup) (fp : FacePair) (i : Nat) : Nat :=
  fp.opp.el_base_index + fg.index_list fp.opp.face_index_list_number i

/-- Writes performed per face pair by the kernel that
`make_interior_flux_batch_assign` generates, as (flux index, output offset,
value) triples: for each face point `i` and each flux, the local-side value
at `loc_fof_base + i` and the opposite-side value at
`opp_fof_base + opp_write_map[i]`, both scaled by `fp.loc.face_jacobian`. -/
def interior_face_pair_writes (fvi : FluxVariableInfo)
    (fluxes : List FluxBinding) (args : String → Nat → ℚ)
    (fg : FaceGroup) (fp : FacePair) : List (Nat × Nat × ℚ) :=
  (List.range fg.face_length).flatMap fun i =>
    fluxes.enum.flatMap fun p =>
      [ (p.1, loc_fof_base fg fp + i,
          fp.loc.face_jacobian *
            fluxToCode fvi p.1 false args (locNodeIdx fg fp i)
              (oppNodeIdx fg fp i) fp.loc fp.opp p.2.flux),
        (p.1, opp_fof_base fg fp + fg.index_list fp.opp_native_write_map i,
          fp.loc.face_jacobian *
            fluxToCode fvi p.1 true args (locNodeIdx fg fp i)
              (oppNodeIdx fg fp i) fp.loc fp.opp p.2.flux) ]

/-- All writes of the generated interior kernel over a face group
(`BOOST_FOREACH(const face_pair &fp, fg.face_pairs)`). -/
def interior_gather_flux (fvi : FluxVariableInfo)
    (fluxes : List FluxBinding) (args : String → Nat → ℚ)
    (fg : FaceGroup) : List (Nat × Nat × ℚ) :=
  fg.face_pairs.flatMap (interior_face_pair_writes fvi fluxes args fg)

/-- Writes performed per face pair by the kernel that
`make_boundary_flux_batch_assign` generates: only the local side is written,
at `loc_fof_base + i`, with the unflipped mapper. -/
def boundary_face_pair_writes (fvi : FluxVariableInfo)
    (fluxes : List FluxBinding) (args : String → Nat → ℚ)
    (fg : FaceGroup) (fp : FacePair) : List (Nat × Nat × ℚ) :=
  (List.range fg.face_length).flatMap fun i =>
    fluxes.enum.map fun p =>
      (p.1, loc_fof_base fg fp + i,
        fp.loc.face_jacobian *
          fluxToCode fvi p.1 false args (locNodeIdx fg fp i)
            (oppNodeIdx fg fp i) fp.loc fp.opp p.2.flux)

/-- All writes of the generated boundary kernel over a face group. -/
def boundary_gather_flux (fvi : FluxVariableInfo)
    (fluxes : List FluxBinding) (args : String → Nat → ℚ)
    (fg : FaceGroup) : List (Nat × Nat × ℚ) :=
  fg.face_pairs.flatMap (boundary_face_pair_writes fvi fluxes args fg)

/-- Flipping the mapper is the same as swapping the local/opposite roles of
every read: node indices and side data exchanged, unflipped formula. -/
theorem fluxToCode_flip (fvi : FluxVariableInfo) (flux_idx : Nat)
    (args : String → Nat → ℚ) (locIdx oppIdx : Nat)
    (loc opp : FacePairSide) (f : FluxExpr) :
    fluxToCode fvi flux_idx true args locIdx oppIdx loc opp f
      = fluxToCode fvi flux_idx false args oppIdx locIdx opp loc f := by
  induction f with
  | const q => rfl
  | normalComp axis => rfl
  | penaltyTerm pwr => rfl
  | fieldComponent fc =>
    unfold fluxToCode
    cases lookupDep fvi.flux_idx_and_dep_to_arg_name (flux_idx, fc) with
    | none => rfl
    | some v =>
      cases v with
      | none => rfl
      | some arg_name => cases fc.is_local <;> rfl
  | add a b iha ihb => unfold fluxToCode; rw [iha, ihb]
  | mul a b iha ihb => unfold fluxToCode; rw [iha, ihb]


/-- C3: in the generated interior-flux kernel, for every face pair of the
face group, every face point `i` and every flux of the batch, the kernel
writes exactly two values for that flux at that point — the local side\'s
result at face-index offset `i` past `loc_fof_base`, computed with the
unflipped mapper (each dependency read from the local buffer iff its
locality flag is set), and the opposite side\'s result at offset
`opp_write_map[i]` past `opp_fof_base`, computed by the same formula with
the local/opposite roles of every read swapped — both scaled by the face\'s
surface Jacobian `fp.loc.face_jacobian`; and every write of the kernel is of
one of these two shapes, two per flux and face point. -/

theorem length_flatMap_pair {α β : Type} (l : List α) (f g : α → β) :
    (l.flatMap fun a => [f a, g a]).length = 2 * l.length := by
  induction l with
  | nil => rfl
  | cons hd tl ih =>
    simp only [List.flatMap_cons, List.length_append, ih, List.length_cons,
      List.length_nil]
    omega

theorem length_flatMap_const {α β : Type} (l : List α) (f : α → List β)
    (c : Nat) (h : ∀ a ∈ l, (f a).length = c) :
    (l.flatMap f).length = c * l.length := by
  induction l with
  | nil => rfl
  | cons hd tl ih =>
    simp only [List.flatMap_cons, List.length_append, List.length_cons]
    rw [h hd (List.mem_cons_self hd tl), ih (fun a ha => h a (List.mem_cons_of_mem hd ha))]
    ring

theorem c3_interior_kernel_two_sided (fvi : FluxVariableInfo)
    (fluxes : List FluxBinding) (args : String → Nat → ℚ)
    (fg : FaceGroup) (fp : FacePair) (hfp : fp ∈ fg.face_pairs)
    (i : Nat) (hi : i < fg.face_length)
    (flux_idx : Nat) (fb : FluxBinding)
    (hfl : fluxes.get? flux_idx = some fb) :
    (flux_idx, loc_fof_base fg fp + i,
        fp.loc.face_jacobian *
          fluxToCode fvi flux_idx false args (locNodeIdx fg fp i)
            (oppNodeIdx fg fp i) fp.loc fp.opp fb.flux)
      ∈ interior_gather_flux fvi fluxes args fg
    ∧ (flux_idx,
        opp_fof_base fg fp + fg.index_list fp.opp_native_write_map i,
        fp.loc.face_jacobian *
          fluxToCode fvi flux_idx false args (oppNodeIdx fg fp i)
            (locNodeIdx fg fp i) fp.opp fp.loc fb.flux)
      ∈ interior_gather_flux fvi fluxes args fg
    ∧ (interior_face_pair_writes fvi fluxes args fg fp).length
        = 2 * fluxes.length * fg.face_length
    ∧ (∀ w ∈ interior_face_pair_writes fvi fluxes args fg fp,
        ∃ i2, i2 < fg.face_length ∧ ∃ k fb2, fluxes.get? k = some fb2 ∧
          (w = (k, loc_fof_base fg fp + i2,
              fp.loc.face_jacobian *
                fluxToCode fvi k false args (locNodeIdx fg fp i2)
                  (oppNodeIdx fg fp i2) fp.loc fp.opp fb2.flux)
           ∨ w = (k,
              opp_fof_base fg fp + fg.index_list fp.opp_native_write_map i2,
              fp.loc.face_jacobian *
                fluxToCode fvi k false args (oppNodeIdx fg fp i2)
                  (locNodeIdx fg fp i2) fp.opp fp.loc fb2.flux))) := by
  have henum : (flux_idx, fb) ∈ fluxes.enum :=
    List.mk_mem_enum_iff_get?.mpr hfl
  refine ⟨?_, ?_, ?_, ?_⟩
  · refine List.mem_flatMap.2 ⟨fp, hfp, ?_⟩
    refine List.mem_flatMap.2 ⟨i, List.mem_range.2 hi, ?_⟩
    refine List.mem_flatMap.2 ⟨(flux_idx, fb), henum, ?_⟩
    exact List.mem_cons_self _ _
  · have hmem : (flux_idx,
        opp_fof_base fg fp + fg.index_list fp.opp_native_write_map i,
        fp.loc.face_jacobian *
          fluxToCode fvi flux_idx true args (locNodeIdx fg fp i)
            (oppNodeIdx fg fp i) fp.loc fp.opp fb.flux)
        ∈ interior_gather_flux fvi fluxes args fg := by
      refine List.mem_flatMap.2 ⟨fp, hfp, ?_⟩
      refine List.mem_flatMap.2 ⟨i, List.mem_range.2 hi, ?_⟩
      refine List.mem_flatMap.2 ⟨(flux_idx, fb), henum, ?_⟩
      exact List.mem_cons_of_mem _ (List.mem_singleton.2 rfl)
    rw [fluxToCode_flip] at hmem
    exact hmem
  · unfold interior_face_pair_writes
    have hinner : ∀ i2 ∈ List.range fg.face_length,
        ((fun i2 => fluxes.enum.flatMap fun p =>
          [ (p.1, loc_fof_base fg fp + i2,
              fp.loc.face_jacobian *
                fluxToCode fvi p.1 false args (locNodeIdx fg fp i2)
                  (oppNodeIdx fg fp i2) fp.loc fp.opp p.2.flux),
            (p.1,
              opp_fof_base fg fp + fg.index_list fp.opp_native_write_map i2,
              fp.loc.face_jacobian *
                fluxToCode fvi p.1 true args (locNodeIdx fg fp i2)
                  (oppNodeIdx fg fp i2) fp.loc fp.opp p.2.flux) ]) i2).length
          = 2 * fluxes.length := by
      intro i2 _
      rw [length_flatMap_pair fluxes.enum
        (fun p => (p.1, loc_fof_base fg fp + i2,
          fp.loc.face_jacobian *
            fluxToCode fvi p.1 false args (locNodeIdx fg fp i2)
              (oppNodeIdx fg fp i2) fp.loc fp.opp p.2.flux))
        (fun p => (p.1,
          opp_fof_base fg fp + fg.index_list fp.opp_native_write_map i2,
          fp.loc.face_jacobian *
            fluxToCode fvi p.1 true args (locNodeIdx fg fp i2)
              (oppNodeIdx fg fp i2) fp.loc fp.opp p.2.flux))]
      rw [List.enum_length]
    rw [length_flatMap_const _ _ _ hinner, List.length_range]
  · intro w hw
    unfold interior_face_pair_writes at hw
    obtain ⟨i2, hi2, hw2⟩ := List.mem_flatMap.1 hw
    obtain ⟨p, hp, hw3⟩ := List.mem_flatMap.1 hw2
    obtain ⟨k, fb2⟩ := p
    have hget : fluxes.get? k = some fb2 := List.mk_mem_enum_iff_get?.mp hp
    refine ⟨i2, List.mem_range.1 hi2, k, fb2, hget, ?_⟩
    rw [List.mem_cons, List.mem_singleton] at hw3
    rcases hw3 with hw3 | hw3
    · exact Or.inl hw3
    · right
      rw [hw3, fluxToCode_flip]


/-- Small concrete flux batch shared by the kernel witnesses: one flux
reading the local trace of field `u`. -/
def smallFluxes : List FluxBinding :=
  [{ flux := .fieldComponent ⟨0, true⟩,
     field := .ordinary (.single (.var "u")) }]

/-- Argument table for `smallFluxes`. -/
def smallFvi : FluxVariableInfo :=
  { arg_specs := [(.var "u", true)],
    arg_names := ["arg0"],
    flux_idx_and_dep_to_arg_name := [((0, ⟨0, true⟩), some "arg0")] }

/-- Concrete argument buffers for the kernel witnesses. -/
def smallArgs : String → Nat → ℚ := fun _ i => (i : ℚ)

/-- Concrete face pair for the kernel witnesses. -/
def smallFp : FacePair :=
  { loc := { el_base_index := 0, face_index_list_number := 0,
             local_el_number := 0, face_id := 0, face_jacobian := 2,
             normal := fun _ => 1, order := 1, h := 1 },
    opp := { el_base_index := 3, face_index_list_number := 1,
             local_el_number := 1, face_id := 1, face_jacobian := 2,
             normal := fun _ => -1, order := 1, h := 1 },
    opp_native_write_map := 2 }

/-- Concrete face group for the kernel witnesses. -/
def smallFg : FaceGroup :=
  { face_pairs := [smallFp], face_length := 2, face_count := 2,
    index_list := fun n i => n + i }

/-- C3, witness: the interior-kernel theorem applied at a concrete face
group, face pair, face point 0 and flux 0. -/
theorem c3_interior_kernel_two_sided_witness :
    (0, loc_fof_base smallFg smallFp + 0,
        smallFp.loc.face_jacobian *
          fluxToCode smallFvi 0 false smallArgs (locNodeIdx smallFg smallFp 0)
            (oppNodeIdx smallFg smallFp 0) smallFp.loc smallFp.opp
            (FluxExpr.fieldComponent ⟨0, true⟩))
      ∈ interior_gather_flux smallFvi smallFluxes smallArgs smallFg :=
  (c3_interior_kernel_two_sided smallFvi smallFluxes smallArgs smallFg
    smallFp (List.mem_cons_self _ _) 0 (by decide) 0
    { flux := .fieldComponent ⟨0, true⟩,
      field := .ordinary (.single (.var "u")) } rfl).1

/-- C7: the generated boundary-flux kernel uses only the local side: for
every face pair, face point and flux it writes exactly one value, at the
local side\'s face-index offset `loc_fof_base + i`, computed with the
unflipped mapper and scaled by the face\'s surface Jacobian; every write of
the kernel has this shape (there is no opposite-side write and no
write-index permutation), and for a boundary-pair operand every non-local
dependency resolves to the boundary field `bfield` (the parallel boundary
buffer) rather than a neighbor element\'s field. -/
theorem c7_boundary_kernel_local_only (fvi : FluxVariableInfo)
    (fluxes : List FluxBinding) (args : String → Nat → ℚ)
    (fg : FaceGroup) (fp : FacePair) (hfp : fp ∈ fg.face_pairs)
    (i : Nat) (hi : i < fg.face_length)
    (flux_idx : Nat) (fb : FluxBinding)
    (hfl : fluxes.get? flux_idx = some fb) :
    (flux_idx, loc_fof_base fg fp + i,
        fp.loc.face_jacobian *
          fluxToCode fvi flux_idx false args (locNodeIdx fg fp i)
            (oppNodeIdx fg fp i) fp.loc fp.opp fb.flux)
      ∈ boundary_gather_flux fvi fluxes args fg
    ∧ (boundary_face_pair_writes fvi fluxes args fg fp).length
        = fluxes.length * fg.face_length
    ∧ (∀ w ∈ boundary_face_pair_writes fvi fluxes args fg fp,
        ∃ i2, i2 < fg.face_length ∧ ∃ k fb2, fluxes.get? k = some fb2 ∧
          w = (k, loc_fof_base fg fp + i2,
            fp.loc.face_jacobian *
              fluxToCode fvi k false args (locNodeIdx fg fp i2)
                (oppNodeIdx fg fp i2) fp.loc fp.opp fb2.flux))
    ∧ (∀ f bf tag fc, fc.is_local = false →
        thisFieldExpr (BindingField.boundaryPair f bf tag) fc = bf) := by
  have henum : (flux_idx, fb) ∈ fluxes.enum :=
    List.mk_mem_enum_iff_get?.mpr hfl
  refine ⟨?_, ?_, ?_, ?_⟩
  · refine List.mem_flatMap.2 ⟨fp, hfp, ?_⟩
    refine List.mem_flatMap.2 ⟨i, List.mem_range.2 hi, ?_⟩
    exact List.mem_map.2 ⟨(flux_idx, fb), henum, rfl⟩
  · unfold boundary_face_pair_writes
    have hinner : ∀ i2 ∈ List.range fg.face_length,
        ((fun i2 => fluxes.enum.map fun p =>
          (p.1, loc_fof_base fg fp + i2,
            fp.loc.face_jacobian *
              fluxToCode fvi p.1 false args (locNodeIdx fg fp i2)
                (oppNodeIdx fg fp i2) fp.loc fp.opp p.2.flux)) i2).length
          = fluxes.length := by
      intro i2 _
      rw [List.length_map, List.enum_length]
    rw [length_flatMap_const _ _ _ hinner, List.length_range]
  · intro w hw
    unfold boundary_face_pair_writes at hw
    obtain ⟨i2, hi2, hw2⟩ := List.mem_flatMap.1 hw
    obtain ⟨p, hp, hw3⟩ := List.mem_map.1 hw2
    obtain ⟨k, fb2⟩ := p
    have hget : fluxes.get? k = some fb2 := List.mk_mem_enum_iff_get?.mp hp
    exact ⟨i2, List.mem_range.1 hi2, k, fb2, hget, hw3.symm⟩
  · intro f bf tag fc hfc
    unfold thisFieldExpr
    rw [hfc]
    rfl

/-- C7, witness: the boundary-kernel theorem applied at the same concrete
data as the interior witness. -/
theorem c7_boundary_kernel_local_only_witness :
    (0, loc_fof_base smallFg smallFp + 0,
        smallFp.loc.face_jacobian *
          fluxToCode smallFvi 0 false smallArgs (locNodeIdx smallFg smallFp 0)
            (oppNodeIdx smallFg smallFp 0) smallFp.loc smallFp.opp
            (FluxExpr.fieldComponent ⟨0, true⟩))
      ∈ boundary_gather_flux smallFvi smallFluxes smallArgs smallFg :=
  (c7_boundary_kernel_local_only smallFvi smallFluxes smallArgs smallFg
    smallFp (List.mem_cons_self _ _) 0 (by decide) 0
    { flux := .fieldComponent ⟨0, true⟩,
      field := .ordinary (.single (.var "u")) } rfl).1

/-- C4: flux batching is deterministic for a fixed rewritten DAG: two runs
of `_get_flux_var_info` over the same flux batch yield identical argument
tables (the same slot names for the same (field-expression, locality) pairs
in the same order), hence identical kernel argument signatures
(`arg_names`) and identical generated-kernel write sequences.  (The
dependency enumeration is modelled with the spec\'s guaranteed stable
iteration order, so the embedded batcher is a pure function of the DAG.) -/
theorem c4_batching_deterministic (fluxes fluxes2 : List FluxBinding)
    (h : fluxes = fluxes2) :
    get_flux_var_info fluxes = get_flux_var_info fluxes2
    ∧ (get_flux_var_info fluxes).map FluxVariableInfo.arg_names
        = (get_flux_var_info fluxes2).map FluxVariableInfo.arg_names
    ∧ (∀ fvi args fg, interior_gather_flux fvi fluxes args fg
        = interior_gather_flux fvi fluxes2 args fg)
    ∧ (∀ fvi args fg, boundary_gather_flux fvi fluxes args fg
        = boundary_gather_flux fvi fluxes2 args fg) := by
  subst h
  exact ⟨rfl, rfl, fun _ _ _ => rfl, fun _ _ _ => rfl⟩

/-- C4, witness: determinism applied to two textually equal batches. -/
theorem c4_batching_deterministic_witness :
    get_flux_var_info smallFluxes = get_flux_var_info smallFluxes :=
  (c4_batching_deterministic smallFluxes smallFluxes rfl).1


end HedgeJit

namespace HedgeCuda

/-- Python exceptions relevant to accelerator plan selection.  The code in
`src/python/cuda/discretization.py` raises a plain `RuntimeError`; the
`PartitionInfeasibleError` constructor embeds the error name used by the
specification so that statements can compare the two. -/
inductive PyError where
  | runtimeError (msg : String)
  | partitionInfeasibleError
deriving DecidableEq

/-- Device- and discretization-dependent behavior of
`hedge.cuda.plan.ExecutionPlanWithFluxTemp` for `Parallelism(pe, se)`:
`invalid_reason()`, `flux_occupancy_record().occupancy` and
`elements_per_block()`.  Modelled from the spec: `hedge/cuda/plan.py` is not
under `src/`, so these are abstract parameters (occupancy as an exact
rational standing for the Python float). -/
structure PlanEnv where
  invalid_reason : Nat → Nat → Option String
  occupancy : Nat → Nat → ℚ
  elements_per_block : Nat → Nat → Nat

/-- Embedding of `generate_valid_plans` inside `Discretization._make_plan`:
enumerate `Parallelism(pe, se)` for `pe in range(2,32)`, `se in
range(1,256)` and keep the plans whose `invalid_reason()` is `None`. -/
def generate_valid_plans (env : PlanEnv) : List (Nat × Nat) :=
  (((List.range' 2 30).flatMap fun pe =>
    (List.range' 1 255).map fun se => (pe, se)).filter
    fun c => env.invalid_reason c.1 c.2 = none)

/-- Embedding of the maximal achievable occupancy
`max(plan.flux_occupancy_record().occupancy for plan in plans)` (0 when no
plan is valid; the code never reads it in that case). -/
def desired_occup (env : PlanEnv) : ℚ :=
  match generate_valid_plans env with
  | [] => 0
  | p :: rest =>
    (rest.map fun c => env.occupancy c.1 c.2).foldl max
      (env.occupancy p.1 p.2)

/-- Embedding of the occupancy cap
`if desired_occup > 0.66: desired_occup = 0.66` (the float literals 0.66 and
1e-10 are embedded as exact rationals). -/
def desired_capped (env : PlanEnv) : ℚ :=
  if 33/50 < desired_occup env then 33/50 else desired_occup env

/-- Embedding of `pytools.argmax2` over `(p, p.elements_per_block())` pairs:
the first plan attaining the maximal value (pytools is an external
collaborator; modelled from the spec: ties are broken by maximizing elements
processed per block). -/
def argmax2 (env : PlanEnv) (g : Nat × Nat) (rest : List (Nat × Nat)) :
    Nat × Nat :=
  rest.foldl (fun best c =>
    if env.elements_per_block best.1 best.2 < env.elements_per_block c.1 c.2
    then c else best) g

/-- Embedding of `Discretization._make_plan`: if no plan is valid, raise
`RuntimeError("no valid CUDA execution plans found")`; otherwise keep the
plans within `1e-10` of the capped target occupancy and return the one
maximizing elements per block. -/
def make_plan (env : PlanEnv) : Except PyError (Nat × Nat) :=
  match generate_valid_plans env with
  | [] => .error (.runtimeError "no valid CUDA execution plans found")
  | p :: rest =>
    match (p :: rest).filter
        (fun c => desired_capped env - 1/10^10 ≤ env.occupancy c.1 c.2) with
    | [] => .error (.runtimeError "argmax of empty iterable")
    | g :: grest => .ok (argmax2 env g grest)

theorem foldl_max_init_le (l : List ℚ) (a : ℚ) : a ≤ l.foldl max a := by
  induction l generalizing a with
  | nil => exact le_refl a
  | cons hd tl ih => exact le_trans (le_max_left a hd) (ih (max a hd))

theorem foldl_max_mem_le (l : List ℚ) (a : ℚ) (x : ℚ) (h : x ∈ l) :
    x ≤ l.foldl max a := by
  induction l generalizing a with
  | nil => simp at h
  | cons hd tl ih =>
    rcases List.mem_cons.1 h with rfl | h2
    · exact le_trans (le_max_right a x) (foldl_max_init_le tl (max a x))
    · exact ih (max a hd) h2


theorem foldl_max_attained (l : List ℚ) (a : ℚ) :
    l.foldl max a = a ∨ l.foldl max a ∈ l := by
  induction l generalizing a with
  | nil => exact Or.inl rfl
  | cons hd tl ih =>
    rcases ih (max a hd) with h | h
    · rcases le_total a hd with hle | hle
      · right
        rw [List.foldl_cons, h, max_eq_right hle]
        exact List.mem_cons_self hd tl
      · left
        rw [List.foldl_cons, h, max_eq_left hle]
    · right
      exact List.mem_cons_of_mem hd h

theorem argmax2_mem (env : PlanEnv) (g : Nat × Nat)
    (rest : List (Nat × Nat)) : argmax2 env g rest ∈ g :: rest := by
  unfold argmax2
  induction rest generalizing g with
  | nil => exact List.mem_cons_self g []
  | cons hd tl ih =>
    rw [List.foldl_cons]
    rcases List.mem_cons.1
        (ih (if env.elements_per_block g.1 g.2
              < env.elements_per_block hd.1 hd.2 then hd else g)) with h | h
    · rw [h]
      by_cases hc : env.elements_per_block g.1 g.2
          < env.elements_per_block hd.1 hd.2
      · rw [if_pos hc]
        exact List.mem_cons_of_mem g (List.mem_cons_self hd tl)
      · rw [if_neg hc]
        exact List.mem_cons_self g (hd :: tl)
    · exact List.mem_cons_of_mem g (List.mem_cons_of_mem hd h)

theorem argmax2_is_max (env : PlanEnv) (g : Nat × Nat)
    (rest : List (Nat × Nat)) :
    ∀ c ∈ g :: rest, env.elements_per_block c.1 c.2
      ≤ env.elements_per_block (argmax2 env g rest).1
          (argmax2 env g rest).2 := by
  unfold argmax2
  induction rest generalizing g with
  | nil =>
    intro c hc
    rcases List.mem_cons.1 hc with rfl | h
    · exact le_refl _
    · simp at h
  | cons hd tl ih =>
    intro c hc
    rw [List.foldl_cons]
    have hstep : env.elements_per_block g.1 g.2
          ≤ env.elements_per_block
              (if env.elements_per_block g.1 g.2
                < env.elements_per_block hd.1 hd.2 then hd else g).1
              (if env.elements_per_block g.1 g.2
                < env.elements_per_block hd.1 hd.2 then hd else g).2
        ∧ env.elements_per_block hd.1 hd.2
          ≤ env.elements_per_block
              (if env.elements_per_block g.1 g.2
                < env.elements_per_block hd.1 hd.2 then hd else g).1
              (if env.elements_per_block g.1 g.2
                < env.elements_per_block hd.1 hd.2 then hd else g).2 := by
      by_cases hc2 : env.elements_per_block g.1 g.2
          < env.elements_per_block hd.1 hd.2
      · rw [if_pos hc2]
        exact ⟨le_of_lt hc2, le_refl _⟩
      · rw [if_neg hc2]
        exact ⟨le_refl _, le_of_not_lt hc2⟩
    rcases List.mem_cons.1 hc with rfl | h2
    · exact le_trans hstep.1 (ih _ _ (List.mem_cons_self _ _))
    · rcases List.mem_cons.1 h2 with rfl | h3
      · exact le_trans hstep.2 (ih _ _ (List.mem_cons_self _ _))
      · exact ih _ c (List.mem_cons_of_mem _ h3)

theorem make_plan_of_no_valid_plans (env : PlanEnv)
    (h : generate_valid_plans env = []) :
    make_plan env
      = .error (.runtimeError "no valid CUDA execution plans found") := by
  unfold make_plan
  rw [h]

theorem desired_capped_le (env : PlanEnv) :
    desired_capped env ≤ desired_occup env := by
  unfold desired_capped
  by_cases h : 33/50 < desired_occup env
  · rw [if_pos h]
    exact le_of_lt h
  · rw [if_neg h]

theorem desired_occup_attained (env : PlanEnv)
    (h : generate_valid_plans env ≠ []) :
    ∃ c ∈ generate_valid_plans env,
      env.occupancy c.1 c.2 = desired_occup env := by
  cases hval : generate_valid_plans env with
  | nil => exact absurd hval h
  | cons p rest =>
    have hd : desired_occup env
        = (rest.map fun c => env.occupancy c.1 c.2).foldl max
            (env.occupancy p.1 p.2) := by
      simp only [desired_occup, hval]
    rcases foldl_max_attained (rest.map fun c => env.occupancy c.1 c.2)
        (env.occupancy p.1 p.2) with h2 | h2
    · refine ⟨p, List.mem_cons_self p rest, ?_⟩
      rw [hd, h2]
    · obtain ⟨c, hc, hce⟩ := List.mem_map.1 h2
      refine ⟨c, List.mem_cons_of_mem p hc, ?_⟩
      rw [hd, hce]

theorem make_plan_good_plans_nonempty (env : PlanEnv)
    (h : generate_valid_plans env ≠ []) :
    ∃ g grest, (generate_valid_plans env).filter
        (fun c => desired_capped env - 1/10^10 ≤ env.occupancy c.1 c.2)
      = g :: grest := by
  obtain ⟨c, hc, hce⟩ := desired_occup_attained env h
  have hpred : desired_capped env - 1/10^10 ≤ env.occupancy c.1 c.2 := by
    rw [hce]
    calc desired_capped env - 1/10^10
        ≤ desired_capped env := by
          have : (0 : ℚ) ≤ 1/10^10 := by norm_num
          linarith
      _ ≤ desired_occup env := desired_capped_le env
  have hmem : c ∈ (generate_valid_plans env).filter
      (fun c => desired_capped env - 1/10^10 ≤ env.occupancy c.1 c.2) :=
    List.mem_filter.2 ⟨hc, by simpa using hpred⟩
  cases hflt : (generate_valid_plans env).filter
      (fun c => desired_capped env - 1/10^10 ≤ env.occupancy c.1 c.2) with
  | nil => rw [hflt] at hmem; simp at hmem
  | cons g grest => exact ⟨g, grest, rfl⟩

theorem make_plan_error_iff (env : PlanEnv) (e : PyError)
    (h : make_plan env = .error e) :
    e = .runtimeError "no valid CUDA execution plans found"
    ∧ generate_valid_plans env = [] := by
  cases hval : generate_valid_plans env with
  | nil =>
    simp only [make_plan, hval] at h
    injection h with h2
    exact ⟨h2.symm, rfl⟩
  | cons p rest =>
    simp only [make_plan, hval] at h
    obtain ⟨g, grest, hflt⟩ :=
      make_plan_good_plans_nonempty env (by rw [hval]; simp)
    rw [hval] at hflt
    rw [hflt] at h
    simp at h


/-- C6: the initially preferred plan returned by `_make_plan` is a valid
plan; `desired_occup` is the maximum achievable occupancy over the valid
plans (an upper bound that is attained); the target is capped at the 0.66
occupancy ceiling; the returned plan reaches the capped target within the
1e-10 tolerance; and it maximizes elements per block among all valid plans
reaching the capped target within tolerance. -/
theorem c6_plan_choice (env : PlanEnv) (p : Nat × Nat)
    (h : make_plan env = .ok p) :
    p ∈ generate_valid_plans env
    ∧ (∀ q ∈ generate_valid_plans env,
        env.occupancy q.1 q.2 ≤ desired_occup env)
    ∧ (∃ q ∈ generate_valid_plans env,
        env.occupancy q.1 q.2 = desired_occup env)
    ∧ desired_capped env
        = (if 33/50 < desired_occup env then 33/50 else desired_occup env)
    ∧ desired_capped env - 1/10^10 ≤ env.occupancy p.1 p.2
    ∧ (∀ q ∈ generate_valid_plans env,
        desired_capped env - 1/10^10 ≤ env.occupancy q.1 q.2 →
        env.elements_per_block q.1 q.2 ≤ env.elements_per_block p.1 p.2) := by
  cases hval : generate_valid_plans env with
  | nil =>
    simp only [make_plan, hval] at h
    exact Except.noConfusion h
  | cons p0 rest =>
    simp only [make_plan, hval] at h
    cases hflt : (p0 :: rest).filter
        (fun c => desired_capped env - 1/10^10 ≤ env.occupancy c.1 c.2) with
    | nil => rw [hflt] at h; simp at h
    | cons g grest =>
      rw [hflt] at h
      injection h with hp
      have hd : desired_occup env
          = (rest.map fun c => env.occupancy c.1 c.2).foldl max
              (env.occupancy p0.1 p0.2) := by
        simp only [desired_occup, hval]
      have hmemflt : p ∈ (p0 :: rest).filter
          (fun c => desired_capped env - 1/10^10 ≤ env.occupancy c.1 c.2) := by
        rw [hflt, ← hp]
        exact argmax2_mem env g grest
      refine ⟨List.mem_of_mem_filter hmemflt, ?_, ?_, rfl, ?_, ?_⟩
      · intro q hq
        rcases List.mem_cons.1 hq with rfl | hq2
        · rw [hd]
          exact foldl_max_init_le _ _
        · rw [hd]
          exact foldl_max_mem_le _ _ _
            (List.mem_map_of_mem (fun c => env.occupancy c.1 c.2) hq2)
      · have := desired_occup_attained env (by rw [hval]; simp)
        rw [hval] at this
        exact this
      · have := (List.mem_filter.1 hmemflt).2
        simpa using this
      · intro q hq hocc
        have hqflt : q ∈ (p0 :: rest).filter
            (fun c => desired_capped env - 1/10^10
              ≤ env.occupancy c.1 c.2) :=
          List.mem_filter.2 ⟨hq, by simpa using hocc⟩
        rw [hflt] at hqflt
        rw [← hp]
        exact argmax2_is_max env g grest q hqflt

/-- Device environment with no valid parallelism configuration at all. -/
def c5NoPlanEnv : PlanEnv :=
  { invalid_reason := fun _ _ => some "exceeds shared memory",
    occupancy := fun _ _ => 0,
    elements_per_block := fun _ _ => 0 }

theorem c5NoPlanEnv_empty : generate_valid_plans c5NoPlanEnv = [] := by
  rw [generate_valid_plans, List.filter_eq_nil]
  intro a ha
  simp [c5NoPlanEnv]

/-- C5, counterexample: when no parallelism configuration is valid,
`_make_plan` raises a plain `RuntimeError("no valid CUDA execution plans
found")` — not the `PartitionInfeasibleError` named by the claim. -/
theorem c5_error_is_runtime_error_not_partition_infeasible :
    make_plan c5NoPlanEnv
      = .error (.runtimeError "no valid CUDA execution plans found")
    ∧ make_plan c5NoPlanEnv ≠ .error .partitionInfeasibleError := by
  have h := make_plan_of_no_valid_plans c5NoPlanEnv c5NoPlanEnv_empty
  refine ⟨h, ?_⟩
  rw [h]
  simp

/-- C5 (amended): if the set of generated valid plans is empty, `_make_plan`
fails with `RuntimeError("no valid CUDA execution plans found")` (the code
raises a plain RuntimeError, not a dedicated PartitionInfeasibleError);
every failure of `_make_plan` is that error and happens exactly when no
valid plan exists; and a failing `_make_plan` returns no plan, so the
accelerator discretization construction (which needs the plan) cannot
proceed. -/
theorem c5_no_valid_plans_runtime_error (env : PlanEnv) :
    (generate_valid_plans env = [] →
      make_plan env
        = .error (.runtimeError "no valid CUDA execution plans found"))
    ∧ (∀ e, make_plan env = .error e →
        e = .runtimeError "no valid CUDA execution plans found"
        ∧ generate_valid_plans env = [])
    ∧ (∀ e, make_plan env = .error e → ∀ p2, make_plan env ≠ .ok p2) := by
  refine ⟨make_plan_of_no_valid_plans env,
    fun e he => make_plan_error_iff env e he, ?_⟩
  intro e he p2 hok
  rw [he] at hok
  exact Except.noConfusion hok

/-- C5, witness: the amended theorem applied to the concrete environment
with no valid plans. -/
theorem c5_no_valid_plans_runtime_error_witness :
    make_plan c5NoPlanEnv
      = .error (.runtimeError "no valid CUDA execution plans found") :=
  (c5_no_valid_plans_runtime_error c5NoPlanEnv).1 c5NoPlanEnv_empty

/-- Device environment for the C6 witness: plans `(2, se)` with `se ≤ 3` are
valid, occupancy grows with `se`, elements per block is `pe * se`. -/
def c6Env : PlanEnv :=
  { invalid_reason := fun pe se =>
      if pe = 2 && se ≤ 3 then none else some "uses too much shared memory",
    occupancy := fun _ se => (se : ℚ) / 10,
    elements_per_block := fun pe se => pe * se }

theorem c6Env_valid_plans :
    generate_valid_plans c6Env = [(2, 1), (2, 2), (2, 3)] := by decide

theorem c6Env_capped : desired_capped c6Env = 3/10 := by
  have hocc : desired_occup c6Env = 3/10 := by
    simp only [desired_occup, c6Env_valid_plans, List.map_cons, List.map_nil,
      List.foldl_cons, List.foldl_nil]
    norm_num [c6Env, max_def]
  rw [desired_capped, hocc]
  norm_num

theorem c6Env_make_plan : make_plan c6Env = .ok (2, 3) := by
  have hflt : ([(2, 1), (2, 2), (2, 3)] : List (Nat × Nat)).filter
      (fun c => desired_capped c6Env - 1/10^10 ≤ c6Env.occupancy c.1 c.2)
      = [(2, 3)] := by
    simp only [c6Env_capped, List.filter_cons, List.filter_nil,
      decide_eq_true_eq]
    norm_num [c6Env]
  simp only [make_plan, c6Env_valid_plans, hflt]
  rfl

/-- C6, witness: the plan-choice theorem applied to `c6Env`, where
`_make_plan` returns the plan (2, 3). -/
theorem c6_plan_choice_witness :
    (2, 3) ∈ generate_valid_plans c6Env :=
  (c6_plan_choice c6Env (2, 3) c6Env_make_plan).1


/-- Embedding of the `block_el_numbers` grouping in
`Discretization._build_blocks`: the dict maps each block number to the list
of element ids assigned to it, in increasing element-id order (the loop
appends `el_id` in enumeration order). -/
def block_el_numbers (partition : List Nat) (b : Nat) : List Nat :=
  (List.range partition.length).filter fun i => partition.get? i = some b

/-- Embedding of `block_count = len(block_el_numbers)`: the number of
distinct block numbers occurring in the partition (the dict has one key per
distinct value). -/
def block_count (partition : List Nat) : Nat :=
  partition.dedup.length

/-- Embedding of `_build_blocks`: one block per block number in
`range(block_count)`; `block_el_numbers[block_num]` raises `KeyError`
(modelled as `none`) if that block number never occurs in the partition. -/
def build_blocks (partition : List Nat) : Option (List (List Nat)) :=
  (List.range (block_count partition)).mapM fun b =>
    if b ∈ partition then some (block_el_numbers partition b) else none

theorem build_blocks_mapM (partition : List Nat) :
    ∀ (l : List Nat) (bs : List (List Nat)),
    (l.mapM fun b => if b ∈ partition
        then some (block_el_numbers partition b) else none) = some bs →
    bs = l.map (block_el_numbers partition) ∧ ∀ b ∈ l, b ∈ partition := by
  intro l
  induction l with
  | nil =>
    intro bs h
    simp only [List.mapM_nil, Option.pure_def, Option.some.injEq] at h
    subst h
    exact ⟨rfl, by simp⟩
  | cons x xs ih =>
    intro bs h
    simp only [List.mapM_cons, Option.pure_def, Option.bind_eq_bind,
      Option.bind_eq_some, Option.some.injEq] at h
    obtain ⟨y, hy, ys, hys, hbs⟩ := h
    obtain ⟨hmap, hmem⟩ := ih ys hys
    have hxmem : x ∈ partition := by
      by_contra hx
      rw [if_neg hx] at hy
      exact Option.noConfusion hy
    rw [if_pos hxmem] at hy
    injection hy with hy2
    refine ⟨?_, ?_⟩
    · rw [← hbs, hmap, List.map_cons, hy2]
    · intro b hb
      rcases List.mem_cons.1 hb with rfl | hb2
      · exact hxmem
      · exact hmem b hb2

theorem values_lt_block_count (partition : List Nat)
    (hall : ∀ b, b < block_count partition → b ∈ partition) :
    ∀ x ∈ partition, x < block_count partition := by
  classical
  have hsub : Finset.range (block_count partition) ⊆ partition.toFinset := by
    intro b hb
    rw [List.mem_toFinset]
    exact hall b (Finset.mem_range.1 hb)
  have hcard : partition.toFinset.card = block_count partition := by
    rw [List.card_toFinset]
    rfl
  have heq : Finset.range (block_count partition) = partition.toFinset :=
    Finset.eq_of_subset_of_card_le hsub
      (by rw [hcard, Finset.card_range])
  intro x hx
  have hx2 : x ∈ Finset.range (block_count partition) := by
    rw [heq, List.mem_toFinset]
    exact hx
  exact Finset.mem_range.1 hx2

theorem sum_map_add_split (l : List Nat) (f g : Nat → Nat) :
    (l.map fun b => f b + g b).sum = (l.map f).sum + (l.map g).sum := by
  induction l with
  | nil => rfl
  | cons hd tl ih =>
    simp only [List.map_cons, List.sum_cons, ih]
    omega

theorem sum_map_indicator (x : Nat) :
    ∀ c : Nat, x < c →
    ((List.range c).map fun b => if b = x then 1 else 0).sum = 1 := by
  intro c
  induction c with
  | zero => omega
  | succ c ih =>
    intro h
    rw [List.range_succ, List.map_append, List.sum_append]
    by_cases hx : x = c
    · subst hx
      have hz : ((List.range x).map fun b => if b = x then 1 else 0).sum
          = 0 := by
        apply List.sum_eq_zero
        intro n hn
        obtain ⟨b, hb, hbe⟩ := List.mem_map.1 hn
        have : b ≠ x := Nat.ne_of_lt (List.mem_range.1 hb)
        rw [← hbe, if_neg this]
      rw [hz]
      simp
    · have hlt : x < c := by omega
      rw [ih hlt]
      simp [Ne.symm hx, hx]

theorem count_eq_filter_range (b : Nat) :
    ∀ l : List Nat,
    ((List.range l.length).filter fun i => l.get? i = some b).length
      = l.count b := by
  intro l
  induction l with
  | nil => rfl
  | cons x xs ih =>
    rw [List.length_cons, List.range_succ_eq_map, List.filter_cons]
    have hmapflt : ((List.map Nat.succ (List.range xs.length)).filter
          fun i => (x :: xs).get? i = some b)
        = List.map Nat.succ ((List.range xs.length).filter
          fun i => xs.get? i = some b) := by
      rw [List.filter_map]
      congr 1
    by_cases hxb : x = b
    · subst hxb
      simp only [List.get?_cons_zero, hmapflt]
      rw [if_pos (by simp)]
      simp only [List.length_cons, List.length_map]
      rw [ih, List.count_cons_self]
    · simp only [List.get?_cons_zero, hmapflt]
      rw [if_neg (by simp [hxb])]
      simp only [List.length_map]
      rw [ih, List.count_cons_of_ne (fun hc => hxb hc.symm)]

theorem sum_counts_eq_length (c : Nat) :
    ∀ l : List Nat, (∀ x ∈ l, x < c) →
    ((List.range c).map fun b => l.count b).sum = l.length := by
  intro l
  induction l with
  | nil => simp
  | cons x xs ih =>
    intro h
    have hx : x < c := h x (List.mem_cons_self x xs)
    have hxs : ∀ y ∈ xs, y < c :=
      fun y hy => h y (List.mem_cons_of_mem x hy)
    have hcnt : ∀ b : Nat, (x :: xs).count b
        = xs.count b + (if b = x then 1 else 0) := by
      intro b
      by_cases hbx : b = x
      · subst hbx
        rw [List.count_cons_self, if_pos rfl]
      · rw [List.count_cons_of_ne hbx, if_neg hbx]
        omega
    calc ((List.range c).map fun b => (x :: xs).count b).sum
        = ((List.range c).map fun b =>
            xs.count b + (if b = x then 1 else 0)).sum := by
          congr 1
          exact List.map_congr_left fun b _ => hcnt b
      _ = ((List.range c).map fun b => xs.count b).sum
          + ((List.range c).map fun b => if b = x then 1 else 0).sum :=
          sum_map_add_split _ _ _
      _ = xs.length + 1 := by rw [ih hxs, sum_map_indicator x c hx]
      _ = (x :: xs).length := by simp


/-- C9: when `_build_blocks` succeeds on a partition (which it does exactly
for the contiguously numbered partitions the planner produces), the built
blocks cover the mesh exactly: there is one block per block number, every
element index belongs to exactly one block, and the per-block element counts
sum to the total element count. -/
theorem c9_blocks_cover_mesh (partition : List Nat)
    (blocks : List (List Nat)) (h : build_blocks partition = some blocks) :
    blocks.length = block_count partition
    ∧ (∀ i, i < partition.length →
        ∃! b : Nat, ∃ hb : b < blocks.length, i ∈ blocks.get ⟨b, hb⟩)
    ∧ (blocks.map List.length).sum = partition.length := by
  obtain ⟨hmap, hall0⟩ := build_blocks_mapM partition _ blocks h
  have hall : ∀ b, b < block_count partition → b ∈ partition :=
    fun b hb => hall0 b (List.mem_range.2 hb)
  have hlt := values_lt_block_count partition hall
  have hlen : blocks.length = block_count partition := by
    rw [hmap, List.length_map, List.length_range]
  have hblocks_get : ∀ (b : Nat) (hb : b < blocks.length),
      blocks.get ⟨b, hb⟩ = block_el_numbers partition b := by
    intro b hb
    rw [List.get_eq_getElem, List.getElem_of_eq hmap hb, List.getElem_map,
      List.getElem_range]
  refine ⟨hlen, ?_, ?_⟩
  · intro i hi
    obtain ⟨b0, hb0⟩ : ∃ b0, partition.get? i = some b0 :=
      ⟨partition.get ⟨i, hi⟩, List.get?_eq_get hi⟩
    have hb0mem : b0 ∈ partition := List.get?_mem hb0
    have hb0lt2 : b0 < blocks.length := by
      rw [hlen]
      exact hlt b0 hb0mem
    refine ⟨b0, ⟨hb0lt2, ?_⟩, ?_⟩
    · rw [hblocks_get b0 hb0lt2]
      exact List.mem_filter.2 ⟨List.mem_range.2 hi,
        by simp only [decide_eq_true_eq]; exact hb0⟩
    · intro b2 hb2
      obtain ⟨hb2lt, hb2mem⟩ := hb2
      rw [hblocks_get b2 hb2lt] at hb2mem
      have h2 : partition.get? i = some b2 := by
        simpa using (List.mem_filter.1 hb2mem).2
      rw [hb0] at h2
      injection h2 with h3
      exact h3.symm
  · rw [hmap, List.map_map]
    calc ((List.range (block_count partition)).map
          (List.length ∘ block_el_numbers partition)).sum
        = ((List.range (block_count partition)).map
            fun b => partition.count b).sum := by
          congr 1
          refine List.map_congr_left fun b _ => ?_
          simp only [Function.comp_apply, block_el_numbers]
          exact count_eq_filter_range b partition
      _ = partition.length := sum_counts_eq_length _ partition hlt

/-- C9, witness: the coverage theorem applied to the concrete partition
`[0, 1, 0, 2]`, whose blocks are `[[0, 2], [1], [3]]`. -/
theorem c9_blocks_cover_mesh_witness :
    (([[0, 2], [1], [3]] : List (List Nat)).map List.length).sum
      = ([0, 1, 0, 2] : List Nat).length :=
  (c9_blocks_cover_mesh [0, 1, 0, 2] [[0, 2], [1], [3]] (by decide)).2.2


/-- Identity of a face-storage record created by
`_build_face_storage_map`: the interior storage for one side of an interior
face pair (`GPUInteriorFaceStorage`, carrying its element id), the interior
storage of the local side of a boundary face pair, or the virtual external
placeholder (`GPUBoundaryFaceStorage`) of a boundary face pair. -/
inductive GFace where
  | interior (pair_idx : Nat) (is_loc_side : Bool) (el : Nat)
  | bdry_local (pair_idx : Nat) (el : Nat)
  | bdry_virtual (pair_idx : Nat)
deriving DecidableEq

/-- The registration lists `ext_faces_from_me` / `ext_faces_to_me` of every
`GPUBlock`, indexed by block number. -/
structure BlockLists where
  ext_faces_from_me : Nat → List GFace
  ext_faces_to_me : Nat → List GFace

/-- All blocks start with empty registration lists (GPUBlock.__init__). -/
def emptyBlockLists : BlockLists := ⟨fun _ => [], fun _ => []⟩

/-- Embedding of `GPUBlock.register_ext_face_to_me`: append to the target
block\'s `ext_faces_to_me`. -/
def register_to_me (s : BlockLists) (b : Nat) (f : GFace) : BlockLists :=
  { s with ext_faces_to_me := fun b2 =>
      if b2 = b then s.ext_faces_to_me b2 ++ [f] else s.ext_faces_to_me b2 }

/-- Embedding of `GPUBlock.register_ext_face_from_me`. -/
def register_from_me (s : BlockLists) (b : Nat) (f : GFace) : BlockLists :=
  { s with ext_faces_from_me := fun b2 =>
      if b2 = b then s.ext_faces_from_me b2 ++ [f]
      else s.ext_faces_from_me b2 }

/-- Registration effect of one interior face pair (element ids `p.1`,
`p.2`): when the two sides\' native blocks differ, the loop
`for loc_face, opp_face in [(face1, face2), (face2, face1)]` registers each
face "to me" with its partner\'s block and "from me" with its own block;
same-block pairs register nothing. -/
def process_int_pair (partition : Nat → Nat) (k : Nat) (p : Nat × Nat)
    (s : BlockLists) : BlockLists :=
  if partition p.1 ≠ partition p.2 then
    register_from_me
      (register_to_me
        (register_from_me
          (register_to_me s (partition p.2) (GFace.interior k true p.1))
          (partition p.1) (GFace.interior k true p.1))
        (partition p.1) (GFace.interior k false p.2))
      (partition p.2) (GFace.interior k false p.2)
  else s

/-- Registration effect of one boundary face pair with local element `el`:
the virtual opposite record is registered "to me" with the local side\'s
native block and the local record "from me" with that same block,
unconditionally. -/
def process_bdry_pair (partition : Nat → Nat) (k : Nat) (el : Nat)
    (s : BlockLists) : BlockLists :=
  register_from_me
    (register_to_me s (partition el) (GFace.bdry_virtual k))
    (partition el) (GFace.bdry_local k el)

/-- Loop over the interior face pairs, `k` the index of the first pair. -/
def process_int_pairs (partition : Nat → Nat) :
    Nat → List (Nat × Nat) → BlockLists → BlockLists
  | _, [], s => s
  | k, p :: ps, s =>
    process_int_pairs partition (k + 1) ps
      (process_int_pair partition k p s)

/-- Loop over the boundary face pairs. -/
def process_bdry_pairs (partition : Nat → Nat) :
    Nat → List Nat → BlockLists → BlockLists
  | _, [], s => s
  | k, el :: els, s =>
    process_bdry_pairs partition (k + 1) els
      (process_bdry_pair partition k el s)

/-- Embedding of the registration side effects of
`Discretization._build_face_storage_map`: interior face pairs first, then
the boundary face pairs of the TAG_ALL boundary. -/
def build_face_storage_lists (partition : Nat → Nat)
    (int_pairs : List (Nat × Nat)) (bdry_els : List Nat) : BlockLists :=
  process_bdry_pairs partition 0 bdry_els
    (process_int_pairs partition 0 int_pairs emptyBlockLists)

/-- Native block of a face-storage record: the partition block of its
element; the virtual boundary placeholder is resident in no block. -/
def native_block_of (partition : Nat → Nat) : GFace → Option Nat
  | .interior _ _ el => some (partition el)
  | .bdry_local _ el => some (partition el)
  | .bdry_virtual _ => none

/-- Total number of faces native to block `b` that blocks other than `b`
(among `block_cnt` blocks) record as imported "to me". -/
def imported_from_others (s : BlockLists) (partition : Nat → Nat)
    (block_cnt b : Nat) : Nat :=
  ((((List.range block_cnt).filter fun b2 => b2 ≠ b).map fun b2 =>
    ((s.ext_faces_to_me b2).filter
      fun f => native_block_of partition f = some b).length)).sum

theorem process_int_pair_balanced (partition : Nat → Nat) (k : Nat)
    (p : Nat × Nat) (s : BlockLists)
    (hInv : ∀ b, (s.ext_faces_from_me b).length
      = (s.ext_faces_to_me b).length) :
    ∀ b, ((process_int_pair partition k p s).ext_faces_from_me b).length
      = ((process_int_pair partition k p s).ext_faces_to_me b).length := by
  intro b
  unfold process_int_pair
  by_cases hne : partition p.1 ≠ partition p.2
  · rw [if_pos hne]
    simp only [register_from_me, register_to_me]
    by_cases h1 : b = partition p.1 <;> by_cases h2 : b = partition p.2 <;>
      simp [h1, h2, hInv b, hne, Ne.symm hne, hInv (partition p.1),
        hInv (partition p.2)]
  · rw [if_neg hne]
    exact hInv b

theorem process_bdry_pair_balanced (partition : Nat → Nat) (k : Nat)
    (el : Nat) (s : BlockLists)
    (hInv : ∀ b, (s.ext_faces_from_me b).length
      = (s.ext_faces_to_me b).length) :
    ∀ b, ((process_bdry_pair partition k el s).ext_faces_from_me b).length
      = ((process_bdry_pair partition k el s).ext_faces_to_me b).length := by
  intro b
  unfold process_bdry_pair
  simp only [register_from_me, register_to_me]
  by_cases h1 : b = partition el <;>
    simp [h1, hInv b, hInv (partition el)]

theorem process_int_pairs_balanced (partition : Nat → Nat) :
    ∀ (ps : List (Nat × Nat)) (k : Nat) (s : BlockLists),
    (∀ b, (s.ext_faces_from_me b).length = (s.ext_faces_to_me b).length) →
    ∀ b, ((process_int_pairs partition k ps s).ext_faces_from_me b).length
      = ((process_int_pairs partition k ps s).ext_faces_to_me b).length := by
  intro ps
  induction ps with
  | nil => intro k s hInv b; exact hInv b
  | cons p rest ih =>
    intro k s hInv b
    exact ih (k + 1) _ (process_int_pair_balanced partition k p s hInv) b

theorem process_bdry_pairs_balanced (partition : Nat → Nat) :
    ∀ (els : List Nat) (k : Nat) (s : BlockLists),
    (∀ b, (s.ext_faces_from_me b).length = (s.ext_faces_to_me b).length) →
    ∀ b, ((process_bdry_pairs partition k els s).ext_faces_from_me b).length
      = ((process_bdry_pairs partition k els s).ext_faces_to_me b).length := by
  intro els
  induction els with
  | nil => intro k s hInv b; exact hInv b
  | cons el rest ih =>
    intro k s hInv b
    exact ih (k + 1) _ (process_bdry_pair_balanced partition k el s hInv) b

/-- C2 (amended): after the face storage map is fully constructed, every
block\'s `ext_faces_from_me` and `ext_faces_to_me` lists have equal length —
this per-block equality (which counts a boundary face pair\'s virtual
opposite record imported into the SAME block as its local side, not into
another block) is the invariant that `_build_face_storage_map` asserts at
the end of construction, and it holds for every partition and every set of
interior and boundary face pairs. -/
theorem c2_per_block_from_to_balance (partition : Nat → Nat)
    (int_pairs : List (Nat × Nat)) (bdry_els : List Nat) (b : Nat) :
    ((build_face_storage_lists partition int_pairs
        bdry_els).ext_faces_from_me b).length
      = ((build_face_storage_lists partition int_pairs
          bdry_els).ext_faces_to_me b).length := by
  unfold build_face_storage_lists
  exact process_bdry_pairs_balanced partition bdry_els 0 _
    (process_int_pairs_balanced partition int_pairs 0 emptyBlockLists
      (fun _ => rfl)) b

/-- C2, counterexample: one block, no interior pairs, one boundary face.
The block exports one face (`ext_faces_from_me` has the local boundary
record) but no other block records any face imported from it, so the
claimed invariant "exported count = sum of what all other blocks import
from this block" is false — while the equality the code actually asserts
(`len(ext_faces_from_me) == len(ext_faces_to_me)`) holds, because the
virtual boundary record is imported into the very same block. -/
theorem c2_boundary_face_breaks_export_import_count :
    ((build_face_storage_lists (fun _ => 0) [] [0]).ext_faces_from_me
        0).length = 1
    ∧ imported_from_others (build_face_storage_lists (fun _ => 0) [] [0])
        (fun _ => 0) 1 0 = 0
    ∧ ((build_face_storage_lists (fun _ => 0) [] [0]).ext_faces_to_me
        0).length = 1 := by
  refine ⟨by decide, by decide, by decide⟩


theorem process_bdry_pair_mono (partition : Nat → Nat) (k el : Nat)
    (s : BlockLists) (b : Nat) (f : GFace) :
    (f ∈ s.ext_faces_to_me b →
      f ∈ (process_bdry_pair partition k el s).ext_faces_to_me b)
    ∧ (f ∈ s.ext_faces_from_me b →
      f ∈ (process_bdry_pair partition k el s).ext_faces_from_me b) := by
  unfold process_bdry_pair register_to_me register_from_me
  constructor
  · intro h
    by_cases hb : b = partition el
    · subst hb
      simp [h]
    · simp [hb, h]
  · intro h
    by_cases hb : b = partition el
    · subst hb
      simp [h]
    · simp [hb, h]

theorem process_bdry_pairs_mono (partition : Nat → Nat) :
    ∀ (els : List Nat) (k : Nat) (s : BlockLists) (b : Nat) (f : GFace),
    (f ∈ s.ext_faces_to_me b →
      f ∈ (process_bdry_pairs partition k els s).ext_faces_to_me b)
    ∧ (f ∈ s.ext_faces_from_me b →
      f ∈ (process_bdry_pairs partition k els s).ext_faces_from_me b) := by
  intro els
  induction els with
  | nil => intro k s b f; exact ⟨id, id⟩
  | cons el0 rest ih =>
    intro k s b f
    constructor
    · intro h
      exact (ih (k + 1) _ b f).1 ((process_bdry_pair_mono partition k el0 s b f).1 h)
    · intro h
      exact (ih (k + 1) _ b f).2 ((process_bdry_pair_mono partition k el0 s b f).2 h)

theorem process_bdry_pair_adds (partition : Nat → Nat) (k el : Nat)
    (s : BlockLists) :
    GFace.bdry_virtual k
        ∈ (process_bdry_pair partition k el s).ext_faces_to_me (partition el)
    ∧ GFace.bdry_local k el
        ∈ (process_bdry_pair partition k el s).ext_faces_from_me
            (partition el) := by
  unfold process_bdry_pair register_to_me register_from_me
  constructor <;> simp

theorem process_bdry_pairs_mem (partition : Nat → Nat) :
    ∀ (els : List Nat) (k0 : Nat) (s : BlockLists) (j el : Nat),
    els.get? j = some el →
    GFace.bdry_virtual (k0 + j)
        ∈ (process_bdry_pairs partition k0 els s).ext_faces_to_me
            (partition el)
    ∧ GFace.bdry_local (k0 + j) el
        ∈ (process_bdry_pairs partition k0 els s).ext_faces_from_me
            (partition el) := by
  intro els
  induction els with
  | nil => intro k0 s j el h; simp at h
  | cons el0 rest ih =>
    intro k0 s j el h
    cases j with
    | zero =>
      have hel : el0 = el := by simpa using h
      subst hel
      have hadds := process_bdry_pair_adds partition k0 el0 s
      constructor
      · simpa using (process_bdry_pairs_mono partition rest (k0 + 1)
          (process_bdry_pair partition k0 el0 s) (partition el0)
          (GFace.bdry_virtual k0)).1 hadds.1
      · simpa using (process_bdry_pairs_mono partition rest (k0 + 1)
          (process_bdry_pair partition k0 el0 s) (partition el0)
          (GFace.bdry_local k0 el0)).2 hadds.2
    | succ j2 =>
      have htail : rest.get? j2 = some el := by simpa using h
      have := ih (k0 + 1) (process_bdry_pair partition k0 el0 s) j2 el htail
      have harith : k0 + 1 + j2 = k0 + (j2 + 1) := by omega
      rw [harith] at this
      exact this

/-- C8: for every face pair in a boundary face group (independently of the
partition and of the interior pairs), the virtual opposite-side record is
registered with the local side\'s native block as a face imported "to me",
and the local side\'s record is registered with that same block as a face
exported "from me". -/
theorem c8_boundary_pairs_register_duplicated (partition : Nat → Nat)
    (int_pairs : List (Nat × Nat)) (bdry_els : List Nat) (k el : Nat)
    (h : bdry_els.get? k = some el) :
    GFace.bdry_virtual k
        ∈ (build_face_storage_lists partition int_pairs
            bdry_els).ext_faces_to_me (partition el)
    ∧ GFace.bdry_local k el
        ∈ (build_face_storage_lists partition int_pairs
            bdry_els).ext_faces_from_me (partition el) := by
  unfold build_face_storage_lists
  have := process_bdry_pairs_mem partition bdry_els 0
    (process_int_pairs partition 0 int_pairs emptyBlockLists) k el h
  simpa using this

/-- C8, witness: applied to a concrete two-block setup with the boundary
face of element 7. -/
theorem c8_boundary_pairs_register_duplicated_witness :
    GFace.bdry_virtual 0
        ∈ (build_face_storage_lists (fun e => e % 2) [(0, 1)]
            [7]).ext_faces_to_me (7 % 2)
    ∧ GFace.bdry_local 0 7
        ∈ (build_face_storage_lists (fun e => e % 2) [(0, 1)]
            [7]).ext_faces_from_me (7 % 2) :=
  c8_boundary_pairs_register_duplicated (fun e => e % 2) [(0, 1)] [7] 0 7 rfl


end HedgeCuda

namespace HedgeExec

/-- Values held in an execution context (arrays and scalars, as far as the
frame property is concerned their structure is irrelevant). -/
inductive PyVal where
  | num (q : ℚ)
  | arr (l : List ℚ)
deriving DecidableEq

/-- Expressions evaluated against the context by
`ExecutionMapper.exec_assign` (`self(insn.expr)`): a constant or a name
lookup. -/
inductive CtxExpr where
  | const (v : PyVal)
  | name (n : String)
deriving DecidableEq

/-- A Python dict from names to values, with insertion order (the order is
irrelevant to the frame property but kept faithful). -/
abbrev Ctx := List (String × PyVal)

/-- Python dict assignment `d[k] = v`: overwrite in place if the key is
present, else append. -/
def ctx_set : Ctx → String → PyVal → Ctx
  | [], k, v => [(k, v)]
  | (k2, v2) :: rest, k, v =>
      if k2 = k then (k2, v) :: rest else (k2, v2) :: ctx_set rest k v

/-- Python `del d[k]`: remove the (unique) entry with that key. -/
def ctx_del : Ctx → String → Ctx
  | [], _ => []
  | (k2, v2) :: rest, k =>
      if k2 = k then rest else (k2, v2) :: ctx_del rest k

/-- Python dict lookup `d[k]`. -/
def ctx_get : Ctx → String → Option PyVal
  | [], _ => none
  | (k2, v2) :: rest, k => if k2 = k then some v2 else ctx_get rest k

/-- The instruction forms executed by the mapper that mutate the context:
`Assign` (`exec_assign`: `self.context[insn.name] = self(insn.expr)`) and
`Discard` (`exec_discard`: `del self.context[insn.name]`). -/
inductive Insn where
  | assign (name : String) (e : CtxExpr)
  | discard (name : String)
deriving DecidableEq

/-- A heap of Python dict objects identified by index.  This models the
aliasing structure: `context.copy()` in `ExecutionMapper.__init__` allocates
a fresh dict, and every mutation acts on exactly one dict identity. -/
structure DictStore where
  dicts : List Ctx
deriving DecidableEq

/-- Evaluation of a context expression; an unbound name fails (the
`NameResolutionError` of a single evaluation). -/
def eval_expr (c : Ctx) : CtxExpr → Option PyVal
  | .const v => some v
  | .name n => ctx_get c n

/-- Execute one instruction against the dict with identity `mid`, leaving
every other dict untouched.  (Reading a dict identity that does not exist
cannot happen in the Python code; it is modelled as failure.) -/
def exec_insn (st : DictStore) (mid : Nat) (i : Insn) : Option DictStore :=
  (st.dicts.get? mid).bind fun c =>
    match i with
    | .assign n e =>
        (eval_expr c e).map fun v => ⟨st.dicts.set mid (ctx_set c n v)⟩
    | .discard n =>
        (ctx_get c n).bind fun _ => some ⟨st.dicts.set mid (ctx_del c n)⟩

/-- Execute an instruction sequence strictly in order against dict `mid`;
a failing instruction aborts the call. -/
def exec_code (mid : Nat) : DictStore → List Insn → Option DictStore
  | st, [] => some st
  | st, i :: rest =>
      (exec_insn st mid i).bind fun st2 => exec_code mid st2 rest

/-- Embedding of `Executor.__call__` together with
`ExecutionMapper.__init__`: the mapper is initialised with
`context.copy()` — a freshly allocated dict holding the caller\'s bindings —
and the compiled code executes against that copy.  Returns the final store
and the mapper dict\'s identity. -/
def executor_call (st : DictStore) (caller_id : Nat) (code : List Insn) :
    Option (DictStore × Nat) :=
  (st.dicts.get? caller_id).bind fun caller_ctx =>
    (exec_code st.dicts.length ⟨st.dicts ++ [caller_ctx]⟩ code).map
      fun st2 => (st2, st.dicts.length)

theorem exec_insn_frame (st : DictStore) (mid : Nat) (i : Insn)
    (st2 : DictStore) (h : exec_insn st mid i = some st2) (j : Nat)
    (hj : j ≠ mid) : st2.dicts.get? j = st.dicts.get? j := by
  unfold exec_insn at h
  cases hg : st.dicts.get? mid with
  | none =>
    rw [hg, Option.none_bind] at h
    exact Option.noConfusion h
  | some c =>
    rw [hg, Option.some_bind] at h
    cases i with
    | assign n e =>
      cases he : eval_expr c e with
      | none =>
        simp only [he, Option.map_none'] at h
        exact Option.noConfusion h
      | some v =>
        simp only [he, Option.map_some'] at h
        injection h with h2
        rw [← h2]
        exact List.get?_set_ne _ _ (fun hc => hj hc.symm)
    | discard n =>
      cases hd : ctx_get c n with
      | none =>
        simp only [hd, Option.none_bind] at h
        exact Option.noConfusion h
      | some v =>
        simp only [hd, Option.some_bind] at h
        injection h with h2
        rw [← h2]
        exact List.get?_set_ne _ _ (fun hc => hj hc.symm)

theorem exec_code_frame (mid : Nat) :
    ∀ (code : List Insn) (st st2 : DictStore),
    exec_code mid st code = some st2 →
    ∀ j, j ≠ mid → st2.dicts.get? j = st.dicts.get? j := by
  intro code
  induction code with
  | nil =>
    intro st st2 h j hj
    simp only [exec_code, Option.some.injEq] at h
    rw [← h]
  | cons i rest ih =>
    intro st st2 h j hj
    simp only [exec_code] at h
    cases hi : exec_insn st mid i with
    | none =>
      rw [hi, Option.none_bind] at h
      exact Option.noConfusion h
    | some stm =>
      rw [hi, Option.some_bind] at h
      rw [ih stm st2 h j hj]
      exact exec_insn_frame st mid i stm hi j hj

/-- C10: executing a compiled callable never mutates the caller-supplied
binding dict.  `Executor.__call__` hands the bindings to an
`ExecutionMapper`, which operates on `context.copy()` — a fresh dict — so
all `Assign` additions and `Discard` deletions of the run touch only the
copy: after the call the caller\'s dict holds exactly the entries it held
before, and the mapper\'s context is a distinct dict identity. -/
theorem c10_execution_preserves_caller_dict (st : DictStore)
    (caller_id : Nat) (code : List Insn) (st2 : DictStore) (mid : Nat)
    (h : executor_call st caller_id code = some (st2, mid)) :
    st2.dicts.get? caller_id = st.dicts.get? caller_id
    ∧ mid ≠ caller_id := by
  unfold executor_call at h
  cases hg : st.dicts.get? caller_id with
  | none =>
    rw [hg, Option.none_bind] at h
    exact Option.noConfusion h
  | some caller_ctx =>
    rw [hg, Option.some_bind] at h
    cases hc : exec_code st.dicts.length ⟨st.dicts ++ [caller_ctx]⟩ code with
    | none =>
      rw [hc, Option.map_none'] at h
      exact Option.noConfusion h
    | some stf =>
      rw [hc, Option.map_some'] at h
      rw [Option.some.injEq, Prod.mk.injEq] at h
      obtain ⟨ha, hb⟩ := h
      subst ha
      subst hb
      obtain ⟨hlt, -⟩ := List.get?_eq_some.1 hg
      refine ⟨?_, Ne.symm (Nat.ne_of_lt hlt)⟩
      rw [exec_code_frame st.dicts.length code _ _ hc caller_id
        (Nat.ne_of_lt hlt)]
      show (st.dicts ++ [caller_ctx]).get? caller_id = some caller_ctx
      rw [List.get?_append hlt, hg]

/-- C10, witness: a concrete run that assigns a new name and discards an
input name leaves the caller\'s dict unchanged. -/
theorem c10_execution_preserves_caller_dict_witness :
    (DictStore.mk [[("x", PyVal.num 1)], [("y", PyVal.num 2)]]).dicts.get? 0
      = (DictStore.mk [[("x", PyVal.num 1)]]).dicts.get? 0 :=
  (c10_execution_preserves_caller_dict ⟨[[("x", PyVal.num 1)]]⟩ 0
    [.assign "y" (.const (.num 2)), .discard "x"]
    ⟨[[("x", PyVal.num 1)], [("y", PyVal.num 2)]]⟩ 1 (by decide)).1

end HedgeExec
